import Mathlib

/-!
# AMCL BLS24 pairing functions (`pair192.cpp`)

A shallow embedding of `vendor/github.com/jstuczyn/amcl/version3/cpp/pair192.cpp`:
the line function, the two Miller loops, the final exponentiation, the GLV and
Galbraith-Scott scalar decompositions and the three accelerated multiplications.

The file is a template over a curve (`ZZZ`), a big-number width (`XXX`) and a
field (`YYY`).  Its compile-time constants are collected in `Curve`; the
big-number, field-tower and curve-point primitives it calls live in other
files and are taken as parameters or modelled from the specification.
-/

namespace Pair192

/-! ## Build-time configuration -/

/-- Values of the switch `SEXTIC_TWIST_ZZZ`. -/
inductive SexticTwist where
  | D_TYPE
  | M_TYPE
deriving DecidableEq, Repr

/-- Values of the switch `SIGN_OF_X_ZZZ`. -/
inductive SignOfX where
  | POSITIVEX
  | NEGATIVEX
deriving DecidableEq, Repr

/-- The ROM constants and switches of one instantiation of the template:
`CURVE_Bnx` (magnitude of the curve parameter), `CURVE_Order`, `CURVE_B_I`,
the twist type and the sign of the parameter. -/
structure Curve where
  CURVE_Bnx : ℤ
  CURVE_Order : ℤ
  CURVE_B_I : ℤ
  SEXTIC_TWIST : SexticTwist
  SIGN_OF_X : SignOfX
deriving DecidableEq, Repr

/-- The signed curve parameter `u`: `+Bnx` for `POSITIVEX`, `-Bnx` for `NEGATIVEX`. -/
def Curve.u (c : Curve) : ℤ :=
  match c.SIGN_OF_X with
  | SignOfX.POSITIVEX => c.CURVE_Bnx
  | SignOfX.NEGATIVEX => -c.CURVE_Bnx

/-! ## Big-number primitives

A `BIG` is modelled by the integer it represents. `BIG_copy`, `BIG_rcopy` and
`BIG_norm` do not change that integer; `BIG_mod` is `%`, `BIG_sdiv` is `/`,
`BIG_smul` and `BIG_pmul` are `*`, `BIG_sub` is `-`. -/

/-- Modelled from the spec: `BIG_nbits` (big-integer bit-length), the number of
significant bits of a non-negative big number. -/
def BIG_nbits (a : ℤ) : ℕ := Nat.size a.toNat

/-- Modelled from the spec: `BIG_bit` (big-integer bit-at), bit `i` of a
non-negative big number, as the C `int` 0 or 1. -/
def BIG_bit (a : ℤ) (i : ℕ) : ℤ := if a.toNat.testBit i then 1 else 0

/-- Modelled from the spec: `BIG_modneg` (big-integer negate-mod), `r = -a mod m`
computed as `m - (a mod m)`. -/
def BIG_modneg (a m : ℤ) : ℤ := m - a % m

/-- Modelled from the spec: `BIG_fshr(x,1)`, a shift right by one bit. -/
def BIG_fshr1 (x : ℤ) : ℤ := x / 2

/-- Modelled from the spec: `BIG_fshl(x,1)`, a shift left by one bit. -/
def BIG_fshl1 (x : ℤ) : ℤ := x * 2

/-- The values taken by the counter of `for (i=n; i>=1; i--)`. -/
def downFrom : ℕ → List ℕ
  | 0 => []
  | n + 1 => (n + 1) :: downFrom n

/-! ## Field tower and curve point primitives -/

/-- An `FP8` as its two `FP4` halves. -/
structure FP8 (F : Type) where
  a : F
  b : F
deriving DecidableEq, Repr

/-- Modelled from the spec: `FP8_from_FP4s` (from-components), both halves given. -/
def FP8_from_FP4s {F : Type} (x y : F) : FP8 F := ⟨x, y⟩

/-- Modelled from the spec: `FP8_from_FP4` (lifting), the low half given. -/
def FP8_from_FP4 {F : Type} [Zero F] (x : F) : FP8 F := ⟨x, 0⟩

/-- Modelled from the spec: `FP8_from_FP4H` (lifting), the high half given. -/
def FP8_from_FP4H {F : Type} [Zero F] (x : F) : FP8 F := ⟨0, x⟩

/-- Modelled from the spec: `FP8_zero`, the additive identity. -/
def FP8_zero {F : Type} [Zero F] : FP8 F := ⟨0, 0⟩

/-- The `FP4`/`FP24` primitives used by `PAIR_line` that are not ring operations of
`FP4`: multiplication of an `FP4` by an `FP`, division by `2i`, multiplication
by `i`, and the packing of three `FP8` into an `FP24`. -/
structure LineOps (Fp F K : Type) where
  FP4_qmul : F → Fp → F
  FP4_div_2i : F → F
  FP4_times_i : F → F
  FP24_from_FP8s : FP8 F → FP8 F → FP8 F → K

/-- The `ECP4` primitives used by the Miller loops: the projective coordinates of
a twist point and `ECP4_dbl`, `ECP4_add`, `ECP4_neg`, `ECP4_affine`. -/
structure ECP4Ops (F E : Type) where
  x : E → F
  y : E → F
  z : E → F
  ECP4_dbl : E → E
  ECP4_add : E → E → E
  ECP4_neg : E → E
  ECP4_affine : E → E

/-- The `ECP` primitives used by the Miller loops: `ECP_affine` and the two
coordinates of an affine point. -/
structure ECPOps (Fp E1 : Type) where
  x : E1 → Fp
  y : E1 → Fp
  ECP_affine : E1 → E1

/-- The `FP24` primitives that are not operations of the multiplicative structure:
`FP24_conj` and one application of the Frobenius (`FP24_frob(.,X,1)`). -/
structure FP24Ops (K : Type) where
  FP24_conj : K → K
  frob1 : K → K

/-- Modelled from the spec: `FP24_frob(r,X,n)`, the Frobenius applied `n` times. -/
def FP24_frob {K : Type} (o : FP24Ops K) (r : K) (n : ℕ) : K := o.frob1^[n] r

/-- Modelled from the spec: `FP24_pow(r,a,b)`, the ordinary power `a^b`. -/
def FP24_pow {K : Type} [DivisionCommMonoid K] (a : K) (b : ℤ) : K := a ^ b

/-! ## Line function (lines 36-143) -/

/-- `PAIR_line(v,A,B,Qx,Qy)`: `B = none` stands for the call with `A==B` (doubling),
`B = some B` for a distinct second point (addition). Returns `v` as its three `FP8`
components together with the updated `A`. -/
def PAIR_line_abc {Fp F K E : Type} [CommRing F] (c : Curve) (o : LineOps Fp F K)
    (e4 : ECP4Ops F E) (A : E) (B : Option E) (Qx Qy : Fp) : (FP8 F × FP8 F × FP8 F) × E :=
  match B with
  | none =>
    /- doubling -/
    let XX := e4.x A
    let YY := e4.y A
    let ZZ := e4.z A
    let YZ := YY
    let YZ := YZ * ZZ
    let XX := XX * XX
    let YY := YY * YY
    let ZZ := ZZ * ZZ
    let YZ := YZ * ((4 : ℤ) : F)
    let YZ := -YZ
    let XX := XX * ((6 : ℤ) : F)
    let XX := o.FP4_qmul XX Qx
    let ZZ := ZZ * ((3 * c.CURVE_B_I : ℤ) : F)
    let YZ := o.FP4_qmul YZ Qy
    let ZZ := match c.SEXTIC_TWIST with
      | SexticTwist.D_TYPE => o.FP4_div_2i ZZ
      | SexticTwist.M_TYPE => let ZZ := o.FP4_times_i ZZ; ZZ + ZZ
    let YZ := match c.SEXTIC_TWIST with
      | SexticTwist.D_TYPE => YZ
      | SexticTwist.M_TYPE => o.FP4_times_i YZ
    let YY := YY + YY
    let ZZ := ZZ - YY
    let a := FP8_from_FP4s YZ ZZ
    let b := match c.SEXTIC_TWIST with
      | SexticTwist.D_TYPE => FP8_from_FP4 XX
      | SexticTwist.M_TYPE => FP8_zero
    let c8 := match c.SEXTIC_TWIST with
      | SexticTwist.D_TYPE => FP8_zero
      | SexticTwist.M_TYPE => FP8_from_FP4H XX
    ((a, b, c8), e4.ECP4_dbl A)
  | some B =>
    /- addition -/
    let X1 := e4.x A
    let Y1 := e4.y A
    let T1 := e4.z A
    let T2 := T1
    let T1 := T1 * e4.y B
    let T2 := T2 * e4.x B
    let X1 := X1 - T2
    let Y1 := Y1 - T1
    let T1 := X1
    let X1 := o.FP4_qmul X1 Qy
    let X1 := match c.SEXTIC_TWIST with
      | SexticTwist.D_TYPE => X1
      | SexticTwist.M_TYPE => o.FP4_times_i X1
    let T1 := T1 * e4.y B
    let T2 := Y1
    let T2 := T2 * e4.x B
    let T2 := T2 - T1
    let Y1 := o.FP4_qmul Y1 Qx
    let Y1 := -Y1
    let a := FP8_from_FP4s X1 T2
    let b := match c.SEXTIC_TWIST with
      | SexticTwist.D_TYPE => FP8_from_FP4 Y1
      | SexticTwist.M_TYPE => FP8_zero
    let c8 := match c.SEXTIC_TWIST with
      | SexticTwist.D_TYPE => FP8_zero
      | SexticTwist.M_TYPE => FP8_from_FP4H Y1
    ((a, b, c8), e4.ECP4_add A B)

/-- `PAIR_line` with its last statement `FP24_from_FP8s(v,&a,&b,&c)`: the line value
as an `FP24`, and the updated `A`. -/
def PAIR_line {Fp F K E : Type} [CommRing F] (c : Curve) (o : LineOps Fp F K)
    (e4 : ECP4Ops F E) (A : E) (B : Option E) (Qx Qy : Fp) : K × E :=
  let s := PAIR_line_abc c o e4 A B Qx Qy
  (o.FP24_from_FP8s s.1.1 s.1.2.1 s.1.2.2, s.2)

/-! ## Miller loops (lines 146-285)

`FP24_one` is `1`, `FP24_sqr(r,r)` is `r * r` and `FP24_smul(r,&lv,_)` is `r * lv`. -/

/-- One iteration of the main loop of `PAIR_ate` on the state `(r, A)`. -/
def PAIR_ate_step {Fp F K E : Type} [CommRing F] [CommMonoid K] (c : Curve)
    (o : LineOps Fp F K) (e4 : ECP4Ops F E) (n n3 : ℤ) (P NP : E) (Qx Qy : Fp)
    (s : K × E) (i : ℕ) : K × E :=
  let r := s.1 * s.1
  let l := PAIR_line c o e4 s.2 none Qx Qy
  let r := r * l.1
  let A := l.2
  let bt := BIG_bit n3 i - BIG_bit n i
  let s1 : K × E :=
    if bt = 1 then
      let l := PAIR_line c o e4 A (some P) Qx Qy
      (r * l.1, l.2)
    else (r, A)
  if bt = -1 then
    let l := PAIR_line c o e4 s1.2 (some NP) Qx Qy
    (s1.1 * l.1, l.2)
  else s1

/-- The main Miller loop of `PAIR_ate`: the final `(r, A)` before the sign step. -/
def PAIR_ate_loop {Fp F K E E1 : Type} [CommRing F] [CommMonoid K] (c : Curve)
    (o : LineOps Fp F K) (e4 : ECP4Ops F E) (e1 : ECPOps Fp E1) (P1 : E) (Q1 : E1) : K × E :=
  let x := c.CURVE_Bnx
  let n := x
  let n3 := n * 3
  let P := e4.ECP4_affine P1
  let Q := e1.ECP_affine Q1
  let Qx := e1.x Q
  let Qy := e1.y Q
  let A := P
  let NP := e4.ECP4_neg P
  let nb := BIG_nbits n3
  (downFrom (nb - 2)).foldl (PAIR_ate_step c o e4 n n3 P NP Qx Qy) (1, A)

/-- `PAIR_ate(r,P1,Q1)`: the raw Miller-loop value. -/
def PAIR_ate {Fp F K E E1 : Type} [CommRing F] [CommMonoid K] (c : Curve)
    (o : LineOps Fp F K) (o24 : FP24Ops K) (e4 : ECP4Ops F E) (e1 : ECPOps Fp E1)
    (P1 : E) (Q1 : E1) : K :=
  let r := (PAIR_ate_loop c o e4 e1 P1 Q1).1
  match c.SIGN_OF_X with
  | SignOfX.NEGATIVEX => o24.FP24_conj r
  | SignOfX.POSITIVEX => r

/-- One iteration of the main loop of `PAIR_double_ate` on the state `(r, A, B)`. -/
def PAIR_double_ate_step {Fp F K E : Type} [CommRing F] [CommMonoid K] (c : Curve)
    (o : LineOps Fp F K) (e4 : ECP4Ops F E) (n n3 : ℤ) (P NP R NR : E) (Qx Qy Sx Sy : Fp)
    (s : K × E × E) (i : ℕ) : K × E × E :=
  let r := s.1 * s.1
  let l := PAIR_line c o e4 s.2.1 none Qx Qy
  let r := r * l.1
  let A := l.2
  let l := PAIR_line c o e4 s.2.2 none Sx Sy
  let r := r * l.1
  let B := l.2
  let bt := BIG_bit n3 i - BIG_bit n i
  let s1 : K × E × E :=
    if bt = 1 then
      let l := PAIR_line c o e4 A (some P) Qx Qy
      let r := r * l.1
      let A := l.2
      let l := PAIR_line c o e4 B (some R) Sx Sy
      (r * l.1, A, l.2)
    else (r, A, B)
  if bt = -1 then
    let l := PAIR_line c o e4 s1.2.1 (some NP) Qx Qy
    let r := s1.1 * l.1
    let A := l.2
    let l := PAIR_line c o e4 s1.2.2 (some NR) Sx Sy
    (r * l.1, A, l.2)
  else s1

/-- The main Miller loop of `PAIR_double_ate`: the final `(r, A, B)`. -/
def PAIR_double_ate_loop {Fp F K E E1 : Type} [CommRing F] [CommMonoid K] (c : Curve)
    (o : LineOps Fp F K) (e4 : ECP4Ops F E) (e1 : ECPOps Fp E1)
    (P1 : E) (Q1 : E1) (R1 : E) (S1 : E1) : K × E × E :=
  let x := c.CURVE_Bnx
  let n := x
  let n3 := n * 3
  let P := e4.ECP4_affine P1
  let Q := e1.ECP_affine Q1
  let R := e4.ECP4_affine R1
  let S := e1.ECP_affine S1
  let Qx := e1.x Q
  let Qy := e1.y Q
  let Sx := e1.x S
  let Sy := e1.y S
  let A := P
  let B := R
  let NP := e4.ECP4_neg P
  let NR := e4.ECP4_neg R
  let nb := BIG_nbits n3
  (downFrom (nb - 2)).foldl (PAIR_double_ate_step c o e4 n n3 P NP R NR Qx Qy Sx Sy) (1, A, B)

/-- `PAIR_double_ate(r,P1,Q1,R1,S1)`: the raw value of the fused Miller loop. -/
def PAIR_double_ate {Fp F K E E1 : Type} [CommRing F] [CommMonoid K] (c : Curve)
    (o : LineOps Fp F K) (o24 : FP24Ops K) (e4 : ECP4Ops F E) (e1 : ECPOps Fp E1)
    (P1 : E) (Q1 : E1) (R1 : E) (S1 : E1) : K :=
  let r := (PAIR_double_ate_loop c o e4 e1 P1 Q1 R1 S1).1
  match c.SIGN_OF_X with
  | SignOfX.NEGATIVEX => o24.FP24_conj r
  | SignOfX.POSITIVEX => r

/-! ## Final exponentiation (lines 289-392)

`FP24_inv` is the inverse, `FP24_mul` the product, `FP24_usqr` the square and
`FP24_reduce` leaves the value unchanged. -/

/-- The conjugation that follows a power by `x` under `#if SIGN_OF_X_ZZZ==NEGATIVEX`. -/
def conjIfNeg {K : Type} (c : Curve) (o : FP24Ops K) (t : K) : K :=
  match c.SIGN_OF_X with
  | SignOfX.NEGATIVEX => o.FP24_conj t
  | SignOfX.POSITIVEX => t

/-- Lines 303-311: the easy part of the final exponentiation. -/
def PAIR_fexp_easy {K : Type} [DivisionCommMonoid K] (o : FP24Ops K) (r : K) : K :=
  let t0 := r⁻¹
  let r := o.FP24_conj r
  let r := r * t0
  let t0 := r
  let r := FP24_frob o r 4
  let r := r * t0
  r

/-- Lines 315-390: the hard part of the final exponentiation. -/
def PAIR_fexp_hard {K : Type} [DivisionCommMonoid K] (c : Curve) (o : FP24Ops K) (r : K) : K :=
  let x := c.CURVE_Bnx
  let t7 := r * r
  let t1 := FP24_pow t7 x
  let x := BIG_fshr1 x
  let t2 := FP24_pow t1 x
  let x := BIG_fshl1 x
  let t1 := conjIfNeg c o t1
  let t3 := o.FP24_conj t1
  let t2 := t2 * t3
  let t2 := t2 * r
  let t3 := FP24_pow t2 x
  let t4 := FP24_pow t3 x
  let t5 := FP24_pow t4 x
  let t3 := conjIfNeg c o t3
  let t5 := conjIfNeg c o t5
  let t3 := FP24_frob o t3 6
  let t4 := FP24_frob o t4 5
  let t3 := t3 * t4
  let t6 := FP24_pow t5 x
  let t6 := conjIfNeg c o t6
  let t5 := FP24_frob o t5 4
  let t3 := t3 * t5
  let t0 := o.FP24_conj t2
  let t6 := t6 * t0
  let t5 := t6
  let t5 := FP24_frob o t5 3
  let t3 := t3 * t5
  let t5 := FP24_pow t6 x
  let t6 := FP24_pow t5 x
  let t5 := conjIfNeg c o t5
  let t0 := t5
  let t0 := FP24_frob o t0 2
  let t3 := t3 * t0
  let t0 := t6
  let t0 := FP24_frob o t0 1
  let t3 := t3 * t0
  let t5 := FP24_pow t6 x
  let t5 := conjIfNeg c o t5
  let t2 := FP24_frob o t2 7
  let t5 := t5 * t7
  let t3 := t3 * t2
  let t3 := t3 * t5
  r * t3

/-- `PAIR_fexp(r)`: easy part followed by hard part. -/
def PAIR_fexp {K : Type} [DivisionCommMonoid K] (c : Curve) (o : FP24Ops K) (r : K) : K :=
  PAIR_fexp_hard c o (PAIR_fexp_easy o r)

/-! ## Scalar decompositions (lines 396-446) -/

/-- `glv(u,e)`: the pair `(u[0], u[1])`. -/
def glv (c : Curve) (e : ℤ) : ℤ × ℤ :=
  let x := c.CURVE_Bnx
  let x2 := x * x
  let x := x2 * x2
  let u0 := e
  let u0 := u0 % x
  let u1 := e
  let u1 := u1 / x
  let q := c.CURVE_Order
  let u1 := q - u1
  (u0, u1)

/-- The loop of `gs` with `n` iterations left and running value `w`, followed by
`BIG_copy(u[7],w)`: the pieces from the current index on. -/
def gs_loop (x : ℤ) : ℕ → ℤ → List ℤ
  | 0, w => [w]
  | n + 1, w => (w % x) :: gs_loop x n (w / x)

/-- `gs(u,e)`: the eight pieces `u[0..7]`. -/
def gs (c : Curve) (e : ℤ) : List ℤ :=
  let q := c.CURVE_Order
  let x := c.CURVE_Bnx
  let w := e
  let u := gs_loop x 7 w
  match c.SIGN_OF_X with
  | SignOfX.NEGATIVEX =>
    let u := u.set 1 (BIG_modneg (u.getD 1 0) q)
    let u := u.set 3 (BIG_modneg (u.getD 3 0) q)
    let u := u.set 5 (BIG_modneg (u.getD 5 0) q)
    let u := u.set 7 (BIG_modneg (u.getD 7 0) q)
    u
  | SignOfX.POSITIVEX => u

/-! ## Accelerated multiplications (lines 449-576)

G1, G2 and GT are modelled as commutative groups; `ECP_neg`, `ECP4_neg` are the
group negation. The flag in each corrected entry records whether the branch
`if (nn<np)` was taken, that is whether the point or element was negated. -/

/-- Modelled from the spec: `ECP_mul(P,e)` and `ECP4_mul(P,e)` (direct single-scalar
multiplication), `e*P`. -/
def ECP_mul {G : Type} [AddCommGroup G] (P : G) (e : ℤ) : G := e • P

/-- Modelled from the spec: `ECP_mul2(P,Q,e,f)` (simultaneous 2-point
multiplication), `e*P + f*Q`. -/
def ECP_mul2 {G : Type} [AddCommGroup G] (P Q : G) (e f : ℤ) : G := e • P + f • Q

/-- Modelled from the spec: `ECP4_mul8(P,Q,u)` (simultaneous 8-point multiplication),
the sum of the `u[i]*Q[i]`. -/
def ECP4_mul8 {G : Type} [AddCommGroup G] (Q : List G) (u : List ℤ) : G :=
  (List.zipWith (fun Qi ui => ui • Qi) Q u).sum

/-- Modelled from the spec: `FP24_pow8(f,g,u)` (simultaneous 8-fold exponentiation),
the product of the `g[i]^u[i]`. -/
def FP24_pow8 {K : Type} [DivisionCommMonoid K] (g : List K) (u : List ℤ) : K :=
  (List.zipWith (fun gi ui => gi ^ ui) g u).prod

/-- The array filled by `Q[0]=P; for (i=1;i<=n;i++) Q[i]=frob(Q[i-1])`. -/
def frobArray {α : Type} (frob : α → α) : ℕ → α → List α
  | 0, P => [P]
  | n + 1, P => P :: frobArray frob n (frob P)

/-- Lines 467-474 and 476-483 of `PAIR_G1mul`: the sign correction of one entry. -/
def G1_sign_step {G : Type} [AddCommGroup G] (q : ℤ) (ui : ℤ) (Pi : G) : ℤ × G × Bool :=
  let np := BIG_nbits ui
  let t := BIG_modneg ui q
  let nn := BIG_nbits t
  if nn < np then (t, -Pi, true) else (ui, Pi, false)

/-- The scalars and points `PAIR_G1mul` hands to `ECP_mul2` (lines 458-485); `mulCru`
is the map `Q.x = Q.x * CURVE_Cru` on an affine point. -/
def PAIR_G1mul_fix {G : Type} [AddCommGroup G] (c : Curve) (mulCru : G → G) (P : G) (e : ℤ) :
    (ℤ × G × Bool) × (ℤ × G × Bool) :=
  let q := c.CURVE_Order
  let u := glv c e
  let Q := mulCru P
  (G1_sign_step q u.1 P, G1_sign_step q u.2 Q)

/-- `PAIR_G1mul(P,e)`; the flag is `#ifdef USE_GLV_ZZZ`. -/
def PAIR_G1mul {G : Type} [AddCommGroup G] (USE_GLV : Bool) (c : Curve) (mulCru : G → G)
    (P : G) (e : ℤ) : G :=
  if USE_GLV then
    let s := PAIR_G1mul_fix c mulCru P e
    ECP_mul2 s.1.2.1 s.2.2.1 s.1.1 s.2.1
  else ECP_mul P e

/-- Lines 516-524 of `PAIR_G2mul`: the sign correction of entry `i`. -/
def G2_sign_step {G : Type} [AddCommGroup G] (y : ℤ) (ui : ℤ) (Qi : G) : ℤ × G × Bool :=
  let np := BIG_nbits ui
  let x := BIG_modneg ui y
  let nn := BIG_nbits x
  if nn < np then (x, -Qi, true) else (ui, Qi, false)

/-- The scalars and points `PAIR_G2mul` hands to `ECP4_mul8` (lines 504-525); `frob`
is `ECP4_frob(.,X,1)`. -/
def PAIR_G2mul_fix {G : Type} [AddCommGroup G] (c : Curve) (frob : G → G) (P : G) (e : ℤ) :
    List (ℤ × G × Bool) :=
  let y := c.CURVE_Order
  let u := gs c e
  let Q := frobArray frob 7 P
  List.zipWith (G2_sign_step y) u Q

/-- `PAIR_G2mul(P,e)`; the flag is `#ifdef USE_GS_G2_ZZZ`. -/
def PAIR_G2mul {G : Type} [AddCommGroup G] (USE_GS_G2 : Bool) (c : Curve) (frob : G → G)
    (P : G) (e : ℤ) : G :=
  if USE_GS_G2 then
    let s := PAIR_G2mul_fix c frob P e
    ECP4_mul8 (s.map (fun t => t.2.1)) (s.map (fun t => t.1))
  else ECP_mul P e

/-- Lines 561-569 of `PAIR_GTpow`: the sign correction of entry `i`. -/
def GT_sign_step {K : Type} (o : FP24Ops K) (q : ℤ) (ui : ℤ) (gi : K) : ℤ × K × Bool :=
  let np := BIG_nbits ui
  let t := BIG_modneg ui q
  let nn := BIG_nbits t
  if nn < np then (t, o.FP24_conj gi, true) else (ui, gi, false)

/-- The scalars and elements `PAIR_GTpow` hands to `FP24_pow8` (lines 549-570). -/
def PAIR_GTpow_fix {K : Type} (c : Curve) (o : FP24Ops K) (f : K) (e : ℤ) :
    List (ℤ × K × Bool) :=
  let q := c.CURVE_Order
  let u := gs c e
  let g := frobArray o.frob1 7 f
  List.zipWith (GT_sign_step o q) u g

/-- `PAIR_GTpow(f,e)`; the flag is `#ifdef USE_GS_GT_ZZZ`. -/
def PAIR_GTpow {K : Type} [DivisionCommMonoid K] (USE_GS_GT : Bool) (c : Curve)
    (o : FP24Ops K) (f : K) (e : ℤ) : K :=
  if USE_GS_GT then
    let s := PAIR_GTpow_fix c o f e
    FP24_pow8 (s.map (fun t => t.2.1)) (s.map (fun t => t.1))
  else FP24_pow f e

/-! ## Definitions used to state and instantiate the theorems -/

/-- Value of a little-endian digit list in base `b`. -/
def evalBase (b : ℤ) : List ℤ → ℤ
  | [] => 0
  | a :: l => a + b * evalBase b l

/-- Modelled from the spec: `FP24_conj` and `FP24_frob(.,X,1)` on the field of `p^24`
elements (conjugation is the Frobenius involution, the Frobenius endomorphism is the
`p`-th power map): the `p^12`-th and the `p`-th power maps. -/
def powOps (K : Type) [Field K] (p : ℕ) : FP24Ops K :=
  ⟨fun a => a ^ (p ^ 12), fun a => a ^ p⟩

/-- Trial division of `n` by the `2^d` numbers `k, k+2, ..., k+2(2^d-1)`, as a balanced
tree of checks: true when none of them divides `n`. -/
def noDivT (n : ℕ) : ℕ → ℕ → Bool
  | 0, k => n % k != 0
  | d + 1, k => noDivT n d k && noDivT n d (k + 2 * 2 ^ d)

/-- The BLS24 parameter set of `u = 10`: `q = u^8 - u^4 + 1 = 99990001` and
`p = (u-1)^2 q / 3 + u = 2699730037`, both prime. -/
def bls10 : Curve := ⟨10, 99990001, 1, SexticTwist.D_TYPE, SignOfX.POSITIVEX⟩

/-- A toy parameter set with a negative parameter: `u = -2`, `q = u^8 - u^4 + 1 = 241`. -/
def toy2 : Curve := ⟨2, 241, 1, SexticTwist.D_TYPE, SignOfX.NEGATIVEX⟩

/-- A toy parameter set with `Bnx = 3`, negative sign and order `2`. -/
def toy3 : Curve := ⟨3, 2, 1, SexticTwist.M_TYPE, SignOfX.NEGATIVEX⟩

/-- A toy parameter set with a positive parameter: `u = 2`, `q = 241`. -/
def toy2p : Curve := ⟨2, 241, 1, SexticTwist.D_TYPE, SignOfX.POSITIVEX⟩

/-- Modelled from the spec: the `ECP4` point primitives as the operations of an abelian
group of points (`ECP4_dbl` is `A + A`, `ECP4_add` is `A + B`, `ECP4_neg` is `-A`, and
`ECP4_affine` leaves the point unchanged), with given coordinate readers. -/
def groupOps {F E : Type} [AddCommGroup E] (x y z : E → F) : ECP4Ops F E :=
  ⟨x, y, z, fun A => A + A, fun A B => A + B, fun A => -A, fun A => A⟩

/-- A toy tower for concrete instances: `FP4` is the ring of Gaussian integers, `FP` the
integers, `FP4_qmul` the product with an integer, `FP4_times_i` the product with `i`,
`FP4_div_2i` the product with `2/i = -2i`, and an `FP24` is the triple of its `FP8`
components. -/
def gaussLine :
    LineOps ℤ GaussianInt (FP8 GaussianInt × FP8 GaussianInt × FP8 GaussianInt) :=
  ⟨fun a s => a * (s : GaussianInt), fun a => a * ⟨0, -2⟩, fun a => a * ⟨0, 1⟩,
    fun a b c => (a, b, c)⟩

/-- The same toy tower with an `FP24` value collapsed to one Gaussian integer, the sum
of the `FP4` components a line value can populate. -/
def gaussLineK : LineOps ℤ GaussianInt GaussianInt :=
  ⟨gaussLine.FP4_qmul, gaussLine.FP4_div_2i, gaussLine.FP4_times_i,
    fun a b c => a.a + a.b + b.a + c.b⟩

/-- Toy twist points for concrete instances: triples of Gaussian integers read as
projective coordinates `(X, Y, Z)`, with the componentwise group operations. -/
def gaussPoints : ECP4Ops GaussianInt (GaussianInt × GaussianInt × GaussianInt) :=
  groupOps (fun A => A.1) (fun A => A.2.1) (fun A => A.2.2)

/-- Lines 63 and 67-76 of `PAIR_line`, which turn `Z^2` into the term written `6 b' Z^2`
(`6(b/i)z^2` for a `D_TYPE` twist, `6biz^2` for an `M_TYPE` twist) of the doubling line. -/
def PAIR_line_bZZ {Fp F K : Type} [CommRing F] (c : Curve) (o : LineOps Fp F K) (ZZ : F) : F :=
  let ZZ := ZZ * ((3 * c.CURVE_B_I : ℤ) : F)
  match c.SEXTIC_TWIST with
  | SexticTwist.D_TYPE => o.FP4_div_2i ZZ
  | SexticTwist.M_TYPE => let ZZ := o.FP4_times_i ZZ; ZZ + ZZ

/-- The sign correction in the words of the specification: compare the piece `u` with its
negation modulo `q` (`q - piece`, as `BIG_modneg` forms it); keep the smaller of the two,
and take the negated point or element exactly when the negation is the one kept. -/
def keep_smaller {α : Type} (q u : ℤ) (R negR : α) : ℤ × α × Bool :=
  if BIG_modneg u q < u then (BIG_modneg u q, negR, true) else (u, R, false)

/-! ## Lemmas on the decompositions -/

/-- The loop of `gs` with `n` iterations produces `n + 1` pieces. -/
theorem gs_loop_length (x : ℤ) (n : ℕ) (w : ℤ) : (gs_loop x n w).length = n + 1 := by
  induction n generalizing w with
  | zero => rfl
  | succ n ih => simp [gs_loop, ih]

/-- The pieces produced by the loop of `gs` are the base-`x` digits of `w`. -/
theorem evalBase_gs_loop (x : ℤ) (n : ℕ) (w : ℤ) : evalBase x (gs_loop x n w) = w := by
  induction n generalizing w with
  | zero => simp [gs_loop, evalBase]
  | succ n ih => simp [gs_loop, evalBase, ih, Int.emod_add_ediv]


/-- The eight pieces of the loop of `gs` in closed form, for non-negative `e` and `x`. -/
theorem gs_loop_explicit (x e : ℤ) (he : 0 ≤ e) (hx : 0 ≤ x) :
    gs_loop x 7 e = [e % x, e / x % x, e / x ^ 2 % x, e / x ^ 3 % x, e / x ^ 4 % x,
      e / x ^ 5 % x, e / x ^ 6 % x, e / x ^ 7] := by
  have h : ∀ (k : ℕ), e / x ^ k / x = e / x ^ (k + 1) := fun k => by
    lift e to ℕ using he
    lift x to ℕ using hx
    norm_cast
    rw [Nat.div_div_eq_div_mul, pow_succ]
  have h1 : e / x / x = e / x ^ 2 := by simpa using h 1
  simp only [gs_loop, h1, h]

/-! ### Helper lemmas for the accelerated multiplications -/

theorem gs_length (c : Curve) (e : ℤ) : (gs c e).length = 8 := by
  unfold gs
  cases c.SIGN_OF_X <;> simp [gs_loop_length]

theorem frobArray_length {α : Type} (frob : α → α) (n : ℕ) (P : α) :
    (frobArray frob n P).length = n + 1 := by
  induction n generalizing P with
  | zero => rfl
  | succ n ih => simp [frobArray, ih]

/-- The pieces returned by `gs`, read in base the signed parameter, give `e` modulo the
order, for both signs. -/
theorem evalBase_gs_modEq (c : Curve) (e : ℤ) :
    evalBase c.u (gs c e) ≡ e [ZMOD c.CURVE_Order] := by
  have hs := evalBase_gs_loop c.CURVE_Bnx 7 e
  cases hsign : c.SIGN_OF_X with
  | POSITIVEX =>
    have hg : gs c e = gs_loop c.CURVE_Bnx 7 e := by simp [gs, hsign]
    have hu : c.u = c.CURVE_Bnx := by simp [Curve.u, hsign]
    rw [hg, hu, hs]
  | NEGATIVEX =>
    have hu : c.u = -c.CURVE_Bnx := by simp [Curve.u, hsign]
    simp only [gs_loop, evalBase] at hs
    simp only [gs, hsign, gs_loop, hu, List.set_cons_succ, List.set_cons_zero,
      List.getD_cons_zero, List.getD_cons_succ, evalBase, BIG_modneg]
    generalize e % c.CURVE_Bnx = a0 at hs ⊢
    generalize e / c.CURVE_Bnx % c.CURVE_Bnx = a1 at hs ⊢
    generalize e / c.CURVE_Bnx / c.CURVE_Bnx % c.CURVE_Bnx = a2 at hs ⊢
    generalize e / c.CURVE_Bnx / c.CURVE_Bnx / c.CURVE_Bnx % c.CURVE_Bnx = a3 at hs ⊢
    generalize e / c.CURVE_Bnx / c.CURVE_Bnx / c.CURVE_Bnx / c.CURVE_Bnx % c.CURVE_Bnx
      = a4 at hs ⊢
    generalize e / c.CURVE_Bnx / c.CURVE_Bnx / c.CURVE_Bnx / c.CURVE_Bnx / c.CURVE_Bnx
      % c.CURVE_Bnx = a5 at hs ⊢
    generalize e / c.CURVE_Bnx / c.CURVE_Bnx / c.CURVE_Bnx / c.CURVE_Bnx / c.CURVE_Bnx
      / c.CURVE_Bnx % c.CURVE_Bnx = a6 at hs ⊢
    generalize e / c.CURVE_Bnx / c.CURVE_Bnx / c.CURVE_Bnx / c.CURVE_Bnx / c.CURVE_Bnx
      / c.CURVE_Bnx / c.CURVE_Bnx = a7 at hs ⊢
    rw [Int.modEq_iff_dvd]
    refine ⟨c.CURVE_Bnx * (1 + a1 / c.CURVE_Order) + c.CURVE_Bnx ^ 3 * (1 + a3 / c.CURVE_Order)
      + c.CURVE_Bnx ^ 5 * (1 + a5 / c.CURVE_Order)
      + c.CURVE_Bnx ^ 7 * (1 + a7 / c.CURVE_Order), ?_⟩
    rw [Int.emod_def a1, Int.emod_def a3, Int.emod_def a5, Int.emod_def a7]
    linear_combination (-1 : ℤ) * hs

section additive
variable {G : Type} [AddCommGroup G]

/-- Scalars congruent modulo `q` act alike on a point killed by `q`. -/
theorem zsmul_eq_of_modEq {q a b : ℤ} {R : G} (hq : q • R = 0) (h : a ≡ b [ZMOD q]) :
    a • R = b • R := by
  obtain ⟨k, hk⟩ := (Int.modEq_iff_dvd.mp h)
  have : b = a + q * k := by linarith
  rw [this, add_smul, mul_comm, mul_smul, hq, smul_zero, add_zero]

/-- Replacing `u` by `BIG_modneg u q` and `R` by `-R` does not change `u*R`. -/
theorem modneg_zsmul_neg {q : ℤ} (u : ℤ) {R : G} (hq : q • R = 0) :
    BIG_modneg u q • (-R) = u • R := by
  rw [smul_neg, ← neg_smul]
  apply zsmul_eq_of_modEq hq
  rw [Int.modEq_iff_dvd]
  refine ⟨1 + u / q, ?_⟩
  simp only [BIG_modneg]
  rw [Int.emod_def]
  ring

theorem G1_sign_step_zsmul {q : ℤ} (u : ℤ) {R : G} (hq : q • R = 0) :
    (G1_sign_step q u R).1 • (G1_sign_step q u R).2.1 = u • R := by
  unfold G1_sign_step
  simp only
  split_ifs
  · exact modneg_zsmul_neg u hq
  · rfl

theorem G2_sign_step_zsmul {q : ℤ} (u : ℤ) {R : G} (hq : q • R = 0) :
    (G2_sign_step q u R).1 • (G2_sign_step q u R).2.1 = u • R := by
  unfold G2_sign_step
  simp only
  split_ifs
  · exact modneg_zsmul_neg u hq
  · rfl

/-- The sum computed by `ECP4_mul8` on the corrected scalars and the Frobenius images
of `R` is the base-`s` value of the scalars times `R`. -/
theorem mul8_frobArray (q s : ℤ) (frob : G →+ G) (n : ℕ) (us : List ℤ) (R : G)
    (hfrob : frob R = s • R) (hq : q • R = 0) :
    ECP4_mul8 ((List.zipWith (G2_sign_step q) us (frobArray frob n R)).map (fun t => t.2.1))
      ((List.zipWith (G2_sign_step q) us (frobArray frob n R)).map (fun t => t.1))
      = evalBase s (us.take (n + 1)) • R := by
  induction n generalizing us R with
  | zero =>
    cases us with
    | nil => simp [ECP4_mul8, evalBase]
    | cons a l =>
      simp [ECP4_mul8, evalBase, frobArray, G2_sign_step_zsmul a hq]
  | succ n ih =>
    cases us with
    | nil => simp [ECP4_mul8, evalBase]
    | cons a l =>
      have hq2 : q • frob R = 0 := by rw [← map_zsmul, hq, map_zero]
      have hf2 : frob (frob R) = s • frob R := by rw [hfrob, map_zsmul, hfrob]
      have h := ih l (frob R) hf2 hq2
      simp only [ECP4_mul8] at h ⊢
      simp only [frobArray, List.zipWith_cons_cons, List.map_cons, List.sum_cons,
        List.take_succ_cons, evalBase]
      rw [h, G2_sign_step_zsmul a hq, hfrob, add_smul, mul_comm, mul_smul]

/-- The `USE_GS_G2` branch of `PAIR_G2mul` computes `e*P`. -/
theorem PAIR_G2mul_eq (c : Curve) (frob : G →+ G) (P : G) (e : ℤ)
    (hq : c.CURVE_Order • P = 0) (hfrob : frob P = c.u • P) :
    PAIR_G2mul true c frob P e = e • P := by
  simp only [PAIR_G2mul, PAIR_G2mul_fix, if_true]
  rw [mul8_frobArray c.CURVE_Order c.u frob 7 (gs c e) P hfrob hq]
  rw [List.take_of_length_le (by rw [gs_length])]
  exact zsmul_eq_of_modEq hq (evalBase_gs_modEq c e)

/-- The `USE_GLV` branch of `PAIR_G1mul` computes `e*P`. -/
theorem PAIR_G1mul_eq (c : Curve) (mulCru : G → G) (P : G) (e : ℤ)
    (hq : c.CURVE_Order • P = 0) (hcru : mulCru P = (-(c.CURVE_Bnx ^ 4)) • P) :
    PAIR_G1mul true c mulCru P e = e • P := by
  have hqQ : c.CURVE_Order • mulCru P = 0 := by
    rw [hcru, smul_comm, hq, smul_zero]
  simp only [PAIR_G1mul, PAIR_G1mul_fix, if_true, ECP_mul2]
  rw [G1_sign_step_zsmul _ hq, G1_sign_step_zsmul _ hqQ, hcru, ← mul_smul, ← add_smul]
  apply zsmul_eq_of_modEq hq
  rw [Int.modEq_iff_dvd]
  refine ⟨c.CURVE_Bnx ^ 4, ?_⟩
  have h3 := Int.emod_add_ediv e (c.CURVE_Bnx ^ 4)
  have hx : c.CURVE_Bnx * c.CURVE_Bnx * (c.CURVE_Bnx * c.CURVE_Bnx) = c.CURVE_Bnx ^ 4 := by ring
  simp only [glv, hx]
  linear_combination (-1 : ℤ) * h3

end additive


section multiplicative
variable {K : Type} [Field K]

/-- Exponents congruent modulo `q` give the same power of an element of order dividing `q`. -/
theorem zpow_eq_of_modEq {q a b : ℤ} {g : K} (hg : g ≠ 0) (hq : g ^ q = 1)
    (h : a ≡ b [ZMOD q]) : g ^ a = g ^ b := by
  obtain ⟨k, hk⟩ := (Int.modEq_iff_dvd.mp h)
  have : b = a + q * k := by linarith
  rw [this, zpow_add₀ hg, zpow_mul, hq, one_zpow, mul_one]

theorem modneg_zpow_inv {q : ℤ} (u : ℤ) {g : K} (hg : g ≠ 0) (hq : g ^ q = 1) :
    g⁻¹ ^ BIG_modneg u q = g ^ u := by
  rw [inv_zpow']
  apply zpow_eq_of_modEq hg hq
  rw [Int.modEq_iff_dvd]
  refine ⟨1 + u / q, ?_⟩
  simp only [BIG_modneg]
  rw [Int.emod_def]
  ring

theorem GT_sign_step_zpow (o : FP24Ops K) {q : ℤ} (u : ℤ) {g : K} (hg : g ≠ 0)
    (hq : g ^ q = 1) (hconj : o.FP24_conj g = g⁻¹) :
    (GT_sign_step o q u g).2.1 ^ (GT_sign_step o q u g).1 = g ^ u := by
  unfold GT_sign_step
  simp only
  split_ifs
  · rw [hconj]
    exact modneg_zpow_inv u hg hq
  · rfl

/-- The product computed by `FP24_pow8` on the corrected scalars and the Frobenius images
of `g` is `g` to the base-`s` value of the scalars. -/
theorem pow8_frobArray (q s : ℤ) (o : FP24Ops K)
    (hc : ∀ (a : K) (k : ℤ), o.FP24_conj (a ^ k) = o.FP24_conj a ^ k)
    (hfz : ∀ (a : K) (k : ℤ), o.frob1 (a ^ k) = o.frob1 a ^ k)
    (hf0 : ∀ a : K, a ≠ 0 → o.frob1 a ≠ 0) (hf1 : o.frob1 1 = 1)
    (n : ℕ) (us : List ℤ) (g : K)
    (hg : g ≠ 0) (hq : g ^ q = 1) (hconj : o.FP24_conj g = g⁻¹) (hfrob : o.frob1 g = g ^ s) :
    FP24_pow8
      ((List.zipWith (GT_sign_step o q) us (frobArray o.frob1 n g)).map (fun t => t.2.1))
      ((List.zipWith (GT_sign_step o q) us (frobArray o.frob1 n g)).map (fun t => t.1))
      = g ^ evalBase s (us.take (n + 1)) := by
  induction n generalizing us g with
  | zero =>
    cases us with
    | nil => simp [FP24_pow8, evalBase]
    | cons a l =>
      simp [FP24_pow8, evalBase, frobArray, GT_sign_step_zpow o a hg hq hconj]
  | succ n ih =>
    cases us with
    | nil => simp [FP24_pow8, evalBase]
    | cons a l =>
      have hg2 : o.frob1 g ≠ 0 := hf0 g hg
      have hq2 : o.frob1 g ^ q = 1 := by rw [← hfz, hq, hf1]
      have hf2 : o.frob1 (o.frob1 g) = o.frob1 g ^ s := by
        conv_lhs => rw [hfrob]
        rw [hfz]
      have hc2 : o.FP24_conj (o.frob1 g) = (o.frob1 g)⁻¹ := by
        rw [hfrob, hc, hconj, inv_zpow]
      have h := ih l (o.frob1 g) hg2 hq2 hc2 hf2
      simp only [FP24_pow8] at h ⊢
      simp only [frobArray, List.zipWith_cons_cons, List.map_cons, List.prod_cons,
        List.take_succ_cons, evalBase]
      rw [h, GT_sign_step_zpow o a hg hq hconj, hfrob, zpow_add₀ hg, zpow_mul]

/-- The `USE_GS_GT` branch of `PAIR_GTpow` computes `f^e` for non-zero `f`. -/
theorem PAIR_GTpow_eq (c : Curve) (o : FP24Ops K)
    (hc : ∀ (a : K) (k : ℤ), o.FP24_conj (a ^ k) = o.FP24_conj a ^ k)
    (hfz : ∀ (a : K) (k : ℤ), o.frob1 (a ^ k) = o.frob1 a ^ k)
    (hf0 : ∀ a : K, a ≠ 0 → o.frob1 a ≠ 0) (hf1 : o.frob1 1 = 1)
    (f : K) (e : ℤ) (hf : f ≠ 0)
    (hq : f ^ c.CURVE_Order = 1) (hconj : o.FP24_conj f = f⁻¹) (hfrob : o.frob1 f = f ^ c.u) :
    PAIR_GTpow true c o f e = f ^ e := by
  simp only [PAIR_GTpow, PAIR_GTpow_fix, if_true]
  rw [pow8_frobArray c.CURVE_Order c.u o hc hfz hf0 hf1 7 (gs c e) f hf hq hconj hfrob]
  rw [List.take_of_length_le (by rw [gs_length])]
  exact zpow_eq_of_modEq hf hq (evalBase_gs_modEq c e)

theorem gs_zero (c : Curve) (h : c.CURVE_Order = 0) : gs c 0 = [0, 0, 0, 0, 0, 0, 0, 0] := by
  unfold gs
  cases c.SIGN_OF_X <;> simp [gs_loop, BIG_modneg, h]

theorem PAIR_GTpow_zero (c : Curve) (o : FP24Ops K) (f : K) (h : c.CURVE_Order = 0) :
    PAIR_GTpow true c o f 0 = 1 := by
  simp [PAIR_GTpow, PAIR_GTpow_fix, gs_zero c h, frobArray, GT_sign_step, BIG_modneg,
    FP24_pow8, h]

end multiplicative

theorem map_zipWith_left {α β γ δ : Type} (f : α → β → γ) (p : γ → δ) (h : α → δ)
    (hp : ∀ a b, p (f a b) = h a) (us : List α) (Qs : List β) (hl : us.length ≤ Qs.length) :
    (List.zipWith f us Qs).map p = us.map h := by
  induction us generalizing Qs with
  | nil => simp
  | cons a l ih =>
    cases Qs with
    | nil => simp at hl
    | cons b m =>
      simp only [List.length_cons, Nat.add_le_add_iff_right] at hl
      simp [hp, ih m hl]

/-- The corrected scalars and the flags of `PAIR_GTpow` are those of `PAIR_G2mul`. -/
theorem PAIR_GTpow_fix_eq_G2 {K G : Type} [AddCommGroup G] (c : Curve) (o : FP24Ops K) (f : K)
    (frobG : G → G) (P : G) (e : ℤ) :
    (PAIR_GTpow_fix c o f e).map (fun t => (t.1, t.2.2))
      = (PAIR_G2mul_fix c frobG P e).map (fun t => (t.1, t.2.2)) := by
  unfold PAIR_GTpow_fix PAIR_G2mul_fix
  simp only
  rw [map_zipWith_left (GT_sign_step o c.CURVE_Order) (fun t => (t.1, t.2.2))
      (fun u => if BIG_nbits (BIG_modneg u c.CURVE_Order) < BIG_nbits u
        then (BIG_modneg u c.CURVE_Order, true) else (u, false)) _ _ _
      (by rw [gs_length, frobArray_length]),
    map_zipWith_left (G2_sign_step c.CURVE_Order) (fun t => (t.1, t.2.2))
      (fun u => if BIG_nbits (BIG_modneg u c.CURVE_Order) < BIG_nbits u
        then (BIG_modneg u c.CURVE_Order, true) else (u, false)) _ _ _
      (by rw [gs_length, frobArray_length])]
  · intro a b
    unfold G2_sign_step
    simp only
    split_ifs <;> rfl
  · intro a b
    unfold GT_sign_step
    simp only
    split_ifs <;> rfl


section fexp
variable {K : Type} [Field K]

/-- Iterating the `p`-th power map `n` times is the `p^n`-th power. -/
theorem FP24_frob_pow (o : FP24Ops K) (p : ℕ) (hfrob : ∀ a, o.frob1 a = a ^ p) (a : K)
    (n : ℕ) : FP24_frob o a n = a ^ (p ^ n) := by
  unfold FP24_frob
  induction n with
  | zero => simp
  | succ n ih => rw [Function.iterate_succ_apply', ih, hfrob, ← pow_mul, pow_succ]

/-- The easy part raises a non-zero `r` to `(p^12 - 1)(p^4 + 1)`. -/
theorem PAIR_fexp_easy_eq (o : FP24Ops K) (p : ℕ) (hconj : ∀ a, o.FP24_conj a = a ^ (p ^ 12))
    (hfrob : ∀ a, o.frob1 a = a ^ p) (r : K) (hr : r ≠ 0) :
    PAIR_fexp_easy o r = r ^ (((p : ℤ) ^ 12 - 1) * ((p : ℤ) ^ 4 + 1)) := by
  unfold PAIR_fexp_easy
  simp only [FP24_frob_pow o p hfrob, hconj]
  have h1 : r ^ p ^ 12 * r⁻¹ = r ^ ((p : ℤ) ^ 12 - 1) := by
    rw [zpow_sub₀ hr, zpow_one, div_eq_mul_inv]
    norm_cast
  rw [h1, ← zpow_natCast, ← zpow_mul, ← zpow_add₀ hr]
  congr 1
  push_cast
  ring

/-- The hard part raises `f` with `f^(p^12) = 1/f` to
`3 + (u-1)^2 (u+p) (u^2+p^2) (u^4+p^4-1)`, for both signs of the even parameter. -/
theorem PAIR_fexp_hard_eq (c : Curve) (o : FP24Ops K) (p : ℕ)
    (hconj : ∀ a, o.FP24_conj a = a ^ (p ^ 12)) (hfrob : ∀ a, o.frob1 a = a ^ p)
    (f : K) (hf : f ≠ 0) (hinv : f ^ (p ^ 12) = f⁻¹) (heven : 2 ∣ c.CURVE_Bnx) :
    PAIR_fexp_hard c o f = f ^ (3 + (c.u - 1) ^ 2 * (c.u + p) * (c.u ^ 2 + (p : ℤ) ^ 2)
      * (c.u ^ 4 + (p : ℤ) ^ 4 - 1)) := by
  have e_mul : ∀ a b : ℤ, f ^ a * f ^ b = f ^ (a + b) := fun a b => (zpow_add₀ hf a b).symm
  have e_pow : ∀ a b : ℤ, (f ^ a) ^ b = f ^ (a * b) := fun a b => (zpow_mul f a b).symm
  have e_conj : ∀ a : ℤ, o.FP24_conj (f ^ a) = f ^ (-a) := by
    intro a
    rw [hconj, ← zpow_natCast, ← zpow_mul, mul_comm, zpow_mul, zpow_natCast, hinv, inv_zpow,
      zpow_neg]
  have e_frob : ∀ (a : ℤ) (n : ℕ), FP24_frob o (f ^ a) n = f ^ (a * (p : ℤ) ^ n) := by
    intro a n
    rw [FP24_frob_pow o p hfrob, ← zpow_natCast, ← zpow_mul]
    push_cast
    rfl
  obtain ⟨h, hh⟩ := heven
  have hx2 : c.CURVE_Bnx / 2 = h := by
    rw [hh]
    simp
  rw [show PAIR_fexp_hard c o f = PAIR_fexp_hard c o (f ^ (1 : ℤ)) by rw [zpow_one]]
  unfold PAIR_fexp_hard
  simp only [FP24_pow, BIG_fshr1, BIG_fshl1, hx2]
  cases hs : c.SIGN_OF_X with
  | POSITIVEX =>
    have hu : c.u = 2 * h := by simp [Curve.u, hs, hh]
    simp only [conjIfNeg, hs, e_mul, e_pow, e_conj, e_frob, hu, hh]
    congr 1
    ring
  | NEGATIVEX =>
    have hu : c.u = -(2 * h) := by simp [Curve.u, hs, hh]
    simp only [conjIfNeg, hs, e_mul, e_pow, e_conj, e_frob, hu, hh]
    congr 1
    ring

/-- Under the BLS24 parameterisation, `q` times the product of the easy and hard
exponents is `3 (p^24 - 1)`. -/
theorem fexp_exponent_identity (u p q : ℤ) (hq : q = u ^ 8 - u ^ 4 + 1)
    (hp : 3 * p = (u - 1) ^ 2 * q + 3 * u) :
    q * (((p ^ 12 - 1) * (p ^ 4 + 1)) *
      (3 + (u - 1) ^ 2 * (u + p) * (u ^ 2 + p ^ 2) * (u ^ 4 + p ^ 4 - 1)))
      = 3 * (p ^ 24 - 1) := by
  linear_combination (((p ^ 12 - 1) * (p ^ 4 + 1)) * 3) * hq
    - (((p ^ 12 - 1) * (p ^ 4 + 1)) * ((u + p) * (u ^ 2 + p ^ 2) * (u ^ 4 + p ^ 4 - 1))) * hp

theorem three_dvd_pow (u : ℤ) : ∃ m : ℤ, u ^ 8 - u ^ 4 + 1 = 3 * m + 1 := by
  have h : (3 : ℤ) ∣ u ^ 8 - u ^ 4 := by
    have h0 : ((u ^ 8 - u ^ 4 : ℤ) : ZMod 3) = 0 := by
      push_cast
      generalize (u : ZMod 3) = y
      revert y
      decide
    exact_mod_cast (ZMod.intCast_zmod_eq_zero_iff_dvd (u ^ 8 - u ^ 4) 3).mp h0
  obtain ⟨m, hm⟩ := h
  exact ⟨m, by linarith⟩

/-- Arithmetic of the BLS24 parameterisation: `q` is non-zero, divides `p^24 - 1`,
`p = u (mod q)`, and the exponent of `PAIR_fexp` is `3 (p^24 - 1)/q`. -/
theorem order_dvd (u p q : ℤ) (hq : q = u ^ 8 - u ^ 4 + 1)
    (hp : 3 * p = (u - 1) ^ 2 * q + 3 * u) :
    q ≠ 0 ∧ q ∣ p ^ 24 - 1 ∧ p ≡ u [ZMOD q] ∧
    ((p ^ 12 - 1) * (p ^ 4 + 1)) *
      (3 + (u - 1) ^ 2 * (u + p) * (u ^ 2 + p ^ 2) * (u ^ 4 + p ^ 4 - 1))
      = 3 * ((p ^ 24 - 1) / q) := by
  obtain ⟨m, hm⟩ := three_dvd_pow u
  have hq1 : q = 3 * m + 1 := by rw [hq, hm]
  have hq0 : q ≠ 0 := by omega
  have hid := fexp_exponent_identity u p q hq hp
  have hcop : IsCoprime q 3 := ⟨1, -m, by rw [hq1]; ring⟩
  have hdvd : q ∣ p ^ 24 - 1 := by
    apply hcop.dvd_of_dvd_mul_left
    exact ⟨_, hid.symm⟩
  refine ⟨hq0, hdvd, ?_, ?_⟩
  · rw [Int.modEq_iff_dvd]
    refine ⟨m * (u - 1) ^ 2 - (p - u), ?_⟩
    linear_combination (p - u) * hq1 + m * hp
  · apply mul_left_cancel₀ hq0
    rw [hid, ← mul_assoc, mul_comm q 3, mul_assoc, Int.mul_ediv_cancel' hdvd]



/-- The exponent applied by `PAIR_fexp` to an `r` with `r^(p^24 - 1) = 1`. -/
theorem PAIR_fexp_zpow (c : Curve) (p : ℕ) (r : K) (hr : r ≠ 0)
    (hr1 : r ^ ((p : ℤ) ^ 24 - 1) = 1) (heven : 2 ∣ c.CURVE_Bnx) :
    PAIR_fexp c (powOps K p) r = r ^ ((((p : ℤ) ^ 12 - 1) * ((p : ℤ) ^ 4 + 1)) *
      (3 + (c.u - 1) ^ 2 * (c.u + p) * (c.u ^ 2 + (p : ℤ) ^ 2) * (c.u ^ 4 + (p : ℤ) ^ 4 - 1))) := by
  unfold PAIR_fexp
  rw [PAIR_fexp_easy_eq (powOps K p) p (fun _ => rfl) (fun _ => rfl) r hr]
  have hf : r ^ (((p : ℤ) ^ 12 - 1) * ((p : ℤ) ^ 4 + 1)) ≠ 0 := zpow_ne_zero _ hr
  have hinv : (r ^ (((p : ℤ) ^ 12 - 1) * ((p : ℤ) ^ 4 + 1))) ^ (p ^ 12)
      = (r ^ (((p : ℤ) ^ 12 - 1) * ((p : ℤ) ^ 4 + 1)))⁻¹ := by
    apply eq_inv_of_mul_eq_one_left
    rw [← zpow_natCast, ← zpow_mul, ← zpow_add₀ hr]
    have : ((p : ℤ) ^ 12 - 1) * ((p : ℤ) ^ 4 + 1) * ((p ^ 12 : ℕ) : ℤ)
        + ((p : ℤ) ^ 12 - 1) * ((p : ℤ) ^ 4 + 1) = ((p : ℤ) ^ 24 - 1) * ((p : ℤ) ^ 4 + 1) := by
      push_cast
      ring
    rw [this, zpow_mul, hr1, one_zpow]
  rw [PAIR_fexp_hard_eq c (powOps K p) p (fun _ => rfl) (fun _ => rfl) _ hf hinv heven,
    ← zpow_mul]

/-- In a field of `p^24` elements every non-zero `r` satisfies `r^(p^24 - 1) = 1`. -/
theorem finite_field_zpow_card (K : Type) [Field K] [Finite K] (p : ℕ)
    (hK : Nat.card K = p ^ 24) (r : K) (hr : r ≠ 0) : r ^ ((p : ℤ) ^ 24 - 1) = 1 := by
  haveI := Fintype.ofFinite K
  have h := FiniteField.pow_card_sub_one_eq_one r hr
  rw [← Nat.card_eq_fintype_card, hK] at h
  have hpos : 1 ≤ p ^ 24 := by
    rw [← hK]
    exact Nat.card_pos
  have hc : ((p : ℤ) ^ 24 - 1) = ((p ^ 24 - 1 : ℕ) : ℤ) := by
    rw [Nat.cast_sub hpos]
    push_cast
    ring
  rw [hc, zpow_natCast, h]

/-- On a field of `p^24` elements `PAIR_fexp` is the power `3 (p^24 - 1)/q`. -/
theorem PAIR_fexp_finite (c : Curve) (p : ℕ) (K : Type) [Field K] [Finite K]
    (hK : Nat.card K = p ^ 24) (hq : c.CURVE_Order = c.u ^ 8 - c.u ^ 4 + 1)
    (hp : 3 * (p : ℤ) = (c.u - 1) ^ 2 * c.CURVE_Order + 3 * c.u) (heven : 2 ∣ c.CURVE_Bnx)
    (r : K) (hr : r ≠ 0) :
    PAIR_fexp c (powOps K p) r = r ^ (3 * (((p : ℤ) ^ 24 - 1) / c.CURVE_Order)) := by
  rw [PAIR_fexp_zpow c p r hr (finite_field_zpow_card K p hK r hr) heven,
    (order_dvd c.u p c.CURVE_Order hq hp).2.2.2]

/-- The value of `PAIR_fexp` is non-zero, of order dividing `q`, inverted by
conjugation, and raised to the signed parameter by the Frobenius. -/
theorem PAIR_fexp_subgroup (c : Curve) (p : ℕ) (K : Type) [Field K] [Finite K]
    (hK : Nat.card K = p ^ 24) (hq : c.CURVE_Order = c.u ^ 8 - c.u ^ 4 + 1)
    (hp : 3 * (p : ℤ) = (c.u - 1) ^ 2 * c.CURVE_Order + 3 * c.u) (heven : 2 ∣ c.CURVE_Bnx)
    (r : K) (hr : r ≠ 0) :
    PAIR_fexp c (powOps K p) r ≠ 0 ∧
    PAIR_fexp c (powOps K p) r ^ c.CURVE_Order = 1 ∧
    (powOps K p).FP24_conj (PAIR_fexp c (powOps K p) r) = (PAIR_fexp c (powOps K p) r)⁻¹ ∧
    (powOps K p).frob1 (PAIR_fexp c (powOps K p) r) = PAIR_fexp c (powOps K p) r ^ c.u := by
  have hr1 := finite_field_zpow_card K p hK r hr
  obtain ⟨hq0, hdvd, hmod, hE⟩ := order_dvd c.u p c.CURVE_Order hq hp
  have hz := PAIR_fexp_zpow c p r hr hr1 heven
  have hg0 : PAIR_fexp c (powOps K p) r ≠ 0 := by
    rw [hz]
    exact zpow_ne_zero _ hr
  have hgq : PAIR_fexp c (powOps K p) r ^ c.CURVE_Order = 1 := by
    have h3 : 3 * (((p : ℤ) ^ 24 - 1) / c.CURVE_Order) * c.CURVE_Order
        = ((p : ℤ) ^ 24 - 1) * 3 := by
      rw [mul_assoc, Int.ediv_mul_cancel hdvd, mul_comm]
    rw [hz, hE, ← zpow_mul, h3, zpow_mul, hr1, one_zpow]
  refine ⟨hg0, hgq, ?_, ?_⟩
  · show PAIR_fexp c (powOps K p) r ^ (p ^ 12) = _
    apply eq_inv_of_mul_eq_one_left
    rw [hz, ← zpow_natCast, ← zpow_mul, ← zpow_add₀ hr]
    have : ∀ H : ℤ, ((p : ℤ) ^ 12 - 1) * ((p : ℤ) ^ 4 + 1) * H * ((p ^ 12 : ℕ) : ℤ)
        + ((p : ℤ) ^ 12 - 1) * ((p : ℤ) ^ 4 + 1) * H
        = ((p : ℤ) ^ 24 - 1) * (((p : ℤ) ^ 4 + 1) * H) := by
      intro H
      push_cast
      ring
    rw [this, zpow_mul, hr1, one_zpow]
  · show PAIR_fexp c (powOps K p) r ^ p = _
    rw [← zpow_natCast]
    exact zpow_eq_of_modEq hg0 hgq hmod

theorem powOps_GTpow (c : Curve) (p : ℕ) (g : K) (e : ℤ) (hg : g ≠ 0)
    (hq : g ^ c.CURVE_Order = 1) (hconj : (powOps K p).FP24_conj g = g⁻¹)
    (hfrob : (powOps K p).frob1 g = g ^ c.u) :
    PAIR_GTpow true c (powOps K p) g e = g ^ e := by
  refine PAIR_GTpow_eq c (powOps K p) ?_ ?_ ?_ ?_ g e hg hq hconj hfrob
  · intro a k
    show (a ^ k) ^ (p ^ 12) = (a ^ (p ^ 12)) ^ k
    rw [← zpow_natCast, ← zpow_mul, mul_comm, zpow_mul, zpow_natCast]
  · intro a k
    show (a ^ k) ^ p = (a ^ p) ^ k
    rw [← zpow_natCast, ← zpow_mul, mul_comm, zpow_mul, zpow_natCast]
  · intro a ha
    exact pow_ne_zero _ ha
  · exact one_pow _



end fexp

/-- A successful `noDivT` check excludes every divisor in its range. -/
theorem noDivT_spec (n : ℕ) : ∀ (d k : ℕ), noDivT n d k = true →
    ∀ i, i < 2 ^ d → ¬ (k + 2 * i) ∣ n := by
  intro d
  induction d with
  | zero =>
    intro k h i hi hd
    simp only [noDivT, bne_iff_ne, ne_eq] at h
    have : i = 0 := by omega
    subst this
    exact h (Nat.mod_eq_zero_of_dvd hd)
  | succ d ih =>
    intro k h i hi
    simp only [noDivT, Bool.and_eq_true] at h
    rw [pow_succ] at hi
    by_cases h3 : i < 2 ^ d
    · exact ih k h.1 i h3
    · have h4 := ih (k + 2 * 2 ^ d) h.2 (i - 2 ^ d) (by omega)
      have h5 : k + 2 * 2 ^ d + 2 * (i - 2 ^ d) = k + 2 * i := by omega
      rwa [h5] at h4

theorem noDivT_2699730037 : noDivT 2699730037 15 3 = true := by decide

/-- The modulus of the parameter set `u = 10` is prime. -/
theorem prime_2699730037 : Nat.Prime 2699730037 := by
  rw [Nat.prime_def]
  refine ⟨by norm_num, ?_⟩
  intro m hm
  by_contra hne
  push_neg at hne
  obtain ⟨k, hk⟩ := hm
  have h2 : ∀ a, 2 ≤ a → a < 51962 → ¬ a ∣ 2699730037 := by
    intro a h1 h2 hd
    rcases Nat.even_or_odd a with ⟨b, hb⟩ | ⟨b, hb⟩
    · have h3 : 2 ∣ 2699730037 := Dvd.dvd.trans ⟨b, by omega⟩ hd
      omega
    · have h4 := noDivT_spec _ 15 3 noDivT_2699730037 (b - 1) (by norm_num; omega)
      have h5 : 3 + 2 * (b - 1) = a := by omega
      rw [h5] at h4
      exact h4 hd
  have hm1 : 2 ≤ m := by
    rcases m with _ | _ | m
    · simp at hk
    · simp at hne
    · omega
  have hk1 : 2 ≤ k := by
    rcases k with _ | _ | k
    · simp at hk
    · simp at hk; omega
    · omega
  by_cases hlt : m < 51962
  · exact h2 m hm1 hlt ⟨k, hk⟩
  · have : k < 51962 := by
      by_contra hk2
      have : 51962 * 51962 ≤ m * k := Nat.mul_le_mul (by omega) (by omega)
      omega
    exact h2 k hk1 this ⟨m, by rw [hk, mul_comm]⟩

/-- The Galois field of `2699730037^24` elements has that many elements. -/
theorem galois_card : Nat.card (@GaloisField 2699730037 ⟨prime_2699730037⟩ 24)
    = 2699730037 ^ 24 :=
  @GaloisField.card 2699730037 ⟨prime_2699730037⟩ 24 (by norm_num)

theorem bls10_order : bls10.CURVE_Order = bls10.u ^ 8 - bls10.u ^ 4 + 1 := by
  norm_num [bls10, Curve.u]

theorem bls10_modulus : 3 * ((2699730037 : ℕ) : ℤ)
    = (bls10.u - 1) ^ 2 * bls10.CURVE_Order + 3 * bls10.u := by
  norm_num [bls10, Curve.u]

theorem bls10_even : (2 : ℤ) ∣ bls10.CURVE_Bnx := by
  norm_num [bls10]

theorem pow_two_mul_eq_one {K : Type} [Field K] (x : K) (hx : x ≠ 0) (D : ℕ)
    (h : x ^ (3 * (D : ℤ)) = x ^ (D : ℤ)) : x ^ (2 * D) = 1 := by
  have h1 : x ^ (2 * D) * x ^ D = 1 * x ^ D := by
    rw [← pow_add, one_mul, ← zpow_natCast, ← zpow_natCast, ← h]
    congr 1
    push_cast
    ring
  exact mul_right_cancel₀ (pow_ne_zero D hx) h1

section miller
variable {Fp F K E E1 : Type} [CommRing F]

/-- One fused iteration is the product of the two single iterations. -/
theorem double_step_eq [CommMonoid K] (c : Curve) (o : LineOps Fp F K) (e4 : ECP4Ops F E)
    (n n3 : ℤ) (P NP R NR : E) (Qx Qy Sx Sy : Fp) (r1 r2 : K) (A B : E) (i : ℕ) :
    PAIR_double_ate_step c o e4 n n3 P NP R NR Qx Qy Sx Sy (r1 * r2, A, B) i =
      ((PAIR_ate_step c o e4 n n3 P NP Qx Qy (r1, A) i).1
        * (PAIR_ate_step c o e4 n n3 R NR Sx Sy (r2, B) i).1,
       (PAIR_ate_step c o e4 n n3 P NP Qx Qy (r1, A) i).2,
       (PAIR_ate_step c o e4 n n3 R NR Sx Sy (r2, B) i).2) := by
  unfold PAIR_double_ate_step PAIR_ate_step
  simp only
  split_ifs <;> simp only [Prod.mk.injEq, and_true] <;> ac_rfl

/-- The fused loop is the product of the two single loops, on every index list. -/
theorem double_loop_eq [CommMonoid K] (c : Curve) (o : LineOps Fp F K) (e4 : ECP4Ops F E)
    (n n3 : ℤ) (P NP R NR : E) (Qx Qy Sx Sy : Fp) (l : List ℕ) (r1 r2 : K) (A B : E) :
    l.foldl (PAIR_double_ate_step c o e4 n n3 P NP R NR Qx Qy Sx Sy) (r1 * r2, A, B) =
      ((l.foldl (PAIR_ate_step c o e4 n n3 P NP Qx Qy) (r1, A)).1
        * (l.foldl (PAIR_ate_step c o e4 n n3 R NR Sx Sy) (r2, B)).1,
       (l.foldl (PAIR_ate_step c o e4 n n3 P NP Qx Qy) (r1, A)).2,
       (l.foldl (PAIR_ate_step c o e4 n n3 R NR Sx Sy) (r2, B)).2) := by
  induction l generalizing r1 r2 A B with
  | nil => rfl
  | cons i l ih =>
    simp only [List.foldl_cons]
    rw [double_step_eq]
    exact ih _ _ _ _

theorem PAIR_double_ate_loop_eq [CommMonoid K] (c : Curve) (o : LineOps Fp F K)
    (e4 : ECP4Ops F E) (e1 : ECPOps Fp E1) (P : E) (Q : E1) (R : E) (S : E1) :
    PAIR_double_ate_loop c o e4 e1 P Q R S =
      ((PAIR_ate_loop c o e4 e1 P Q).1 * (PAIR_ate_loop c o e4 e1 R S).1,
       (PAIR_ate_loop c o e4 e1 P Q).2, (PAIR_ate_loop c o e4 e1 R S).2) := by
  unfold PAIR_double_ate_loop PAIR_ate_loop
  simp only
  rw [← double_loop_eq, one_mul]

/-- The raw fused Miller value is the product of the two raw Miller values when
conjugation is multiplicative. -/
theorem PAIR_double_ate_eq [CommMonoid K] (c : Curve) (o : LineOps Fp F K) (o24 : FP24Ops K)
    (hc : ∀ a b, o24.FP24_conj (a * b) = o24.FP24_conj a * o24.FP24_conj b)
    (e4 : ECP4Ops F E) (e1 : ECPOps Fp E1) (P : E) (Q : E1) (R : E) (S : E1) :
    PAIR_double_ate c o o24 e4 e1 P Q R S
      = PAIR_ate c o o24 e4 e1 P Q * PAIR_ate c o o24 e4 e1 R S := by
  unfold PAIR_double_ate PAIR_ate
  rw [PAIR_double_ate_loop_eq]
  cases c.SIGN_OF_X with
  | POSITIVEX => rfl
  | NEGATIVEX => exact hc _ _

theorem FP24_frob_mul [Mul K] (o : FP24Ops K)
    (hf : ∀ a b, o.frob1 (a * b) = o.frob1 a * o.frob1 b) (a b : K) (n : ℕ) :
    FP24_frob o (a * b) n = FP24_frob o a n * FP24_frob o b n := by
  unfold FP24_frob
  induction n generalizing a b with
  | zero => rfl
  | succ n ih => rw [Function.iterate_succ_apply, hf, ih, Function.iterate_succ_apply,
      Function.iterate_succ_apply]

theorem conjIfNeg_mul [Mul K] (c : Curve) (o : FP24Ops K)
    (hc : ∀ a b, o.FP24_conj (a * b) = o.FP24_conj a * o.FP24_conj b) (a b : K) :
    conjIfNeg c o (a * b) = conjIfNeg c o a * conjIfNeg c o b := by
  unfold conjIfNeg
  cases c.SIGN_OF_X with
  | POSITIVEX => rfl
  | NEGATIVEX => exact hc _ _

/-- The final exponentiation is multiplicative when conjugation and Frobenius are. -/
theorem PAIR_fexp_mul [DivisionCommMonoid K] (c : Curve) (o : FP24Ops K)
    (hc : ∀ a b, o.FP24_conj (a * b) = o.FP24_conj a * o.FP24_conj b)
    (hf : ∀ a b, o.frob1 (a * b) = o.frob1 a * o.frob1 b) (a b : K) :
    PAIR_fexp c o (a * b) = PAIR_fexp c o a * PAIR_fexp c o b := by
  have he : PAIR_fexp_easy o (a * b) = PAIR_fexp_easy o a * PAIR_fexp_easy o b := by
    unfold PAIR_fexp_easy
    simp only [hc, FP24_frob_mul o hf, mul_inv]
    ac_rfl
  unfold PAIR_fexp
  rw [he]
  generalize PAIR_fexp_easy o a = x
  generalize PAIR_fexp_easy o b = y
  unfold PAIR_fexp_hard
  simp only [FP24_pow, hc, FP24_frob_mul o hf, conjIfNeg_mul c o hc, mul_zpow]
  ac_rfl

end miller

/-! ## The claims -/

/-- C2 (double-pairing fusion): with `FP24_sqr` and `FP24_smul` the multiplication of a
commutative field, and `FP24_conj` and the Frobenius field homomorphisms, the raw value
of `PAIR_double_ate(P,Q,R,S)` is the product of the raw values of `PAIR_ate(P,Q)` and
`PAIR_ate(R,S)`, and so `PAIR_fexp` of the fused value is the product of the two final
exponentiations, for all inputs and all line and point primitives. -/
theorem PAIR_double_ate_fusion {Fp F K E E1 : Type} [CommRing F] [Field K] (c : Curve)
    (o : LineOps Fp F K) (conj frob : K →+* K) (e4 : ECP4Ops F E) (e1 : ECPOps Fp E1)
    (P : E) (Q : E1) (R : E) (S : E1) :
    PAIR_double_ate c o ⟨conj, frob⟩ e4 e1 P Q R S
      = PAIR_ate c o ⟨conj, frob⟩ e4 e1 P Q * PAIR_ate c o ⟨conj, frob⟩ e4 e1 R S ∧
    PAIR_fexp c ⟨conj, frob⟩ (PAIR_double_ate c o ⟨conj, frob⟩ e4 e1 P Q R S)
      = PAIR_fexp c ⟨conj, frob⟩ (PAIR_ate c o ⟨conj, frob⟩ e4 e1 P Q)
        * PAIR_fexp c ⟨conj, frob⟩ (PAIR_ate c o ⟨conj, frob⟩ e4 e1 R S) := by
  have h := PAIR_double_ate_eq c o ⟨conj, frob⟩ (fun a b => map_mul conj a b) e4 e1 P Q R S
  refine ⟨h, ?_⟩
  rw [h]
  exact PAIR_fexp_mul c ⟨conj, frob⟩ (fun a b => map_mul conj a b)
    (fun a b => map_mul frob a b) _ _

/-- C3 (GLV multiplication in G1): for `0 <= e <= q` and a point `P` with `q*P = 0`
on which the map `(x,y) -> (CURVE_Cru*x, y)` is multiplication by `-(Bnx^4)`, the
`USE_GLV` branch of `PAIR_G1mul` returns `e*P`, which is what the fallback `ECP_mul(P,e)`
returns. -/
theorem PAIR_G1mul_glv_agrees {G : Type} [AddCommGroup G] (c : Curve) (mulCru : G → G)
    (P : G) (e : ℤ) (_he0 : 0 ≤ e) (_heq : e ≤ c.CURVE_Order)
    (hq : c.CURVE_Order • P = 0) (hcru : mulCru P = (-(c.CURVE_Bnx ^ 4)) • P) :
    PAIR_G1mul true c mulCru P e = e • P ∧
    PAIR_G1mul true c mulCru P e = PAIR_G1mul false c mulCru P e := by
  have h := PAIR_G1mul_eq c mulCru P e hq hcru
  refine ⟨h, ?_⟩
  rw [h]
  rfl

theorem PAIR_G1mul_glv_agrees_witness :
    (0 : ℤ) ≤ 100 ∧ (100 : ℤ) ≤ toy2.CURVE_Order ∧
    PAIR_G1mul true toy2 (fun P => (-(toy2.CURVE_Bnx ^ 4)) • P) (1 : ZMod 241) 100
      = (100 : ℤ) • (1 : ZMod 241) :=
  ⟨by decide, by decide,
    (PAIR_G1mul_glv_agrees toy2 (fun P => (-(toy2.CURVE_Bnx ^ 4)) • P) (1 : ZMod 241) 100
      (by decide) (by decide) (by rw [zsmul_eq_mul, mul_one]; rfl) rfl).1⟩

/-- C4 (Galbraith-Scott multiplication in G2, both signs): for `0 <= e <= q` and a
twist point `P` with `q*P = 0` on which the endomorphism `ECP4_frob` is multiplication by
the signed parameter (`+Bnx` for `POSITIVEX`, `-Bnx` for `NEGATIVEX`), the `USE_GS_G2`
branch of `PAIR_G2mul` returns `e*P`, which is what the fallback `ECP4_mul(P,e)` returns. -/
theorem PAIR_G2mul_gs_agrees {G : Type} [AddCommGroup G] (c : Curve) (frob : G →+ G)
    (P : G) (e : ℤ) (_he0 : 0 ≤ e) (_heq : e ≤ c.CURVE_Order)
    (hq : c.CURVE_Order • P = 0) (hfrob : frob P = c.u • P) :
    PAIR_G2mul true c frob P e = e • P ∧
    PAIR_G2mul true c frob P e = PAIR_G2mul false c frob P e := by
  have h := PAIR_G2mul_eq c frob P e hq hfrob
  refine ⟨h, ?_⟩
  rw [h]
  rfl

theorem PAIR_G2mul_gs_agrees_witness :
    (0 : ℤ) ≤ 100 ∧ (100 : ℤ) ≤ toy2.CURVE_Order ∧
    PAIR_G2mul true toy2 (toy2.u • AddMonoidHom.id (ZMod 241)) (1 : ZMod 241) 100
      = (100 : ℤ) • (1 : ZMod 241) :=
  ⟨by decide, by decide,
    (PAIR_G2mul_gs_agrees toy2 (toy2.u • AddMonoidHom.id (ZMod 241)) (1 : ZMod 241) 100
      (by decide) (by decide) (by rw [zsmul_eq_mul, mul_one]; rfl) rfl).1⟩

/-- C5 (Galbraith-Scott exponentiation in GT): for `0 <= e <= q` and an element `f`
with `f^q = 1`, `conj(f) = 1/f` and `FP24_frob(f,1) = f^u` for the signed parameter `u`
(conjugation and Frobenius being field homomorphisms), the `USE_GS_GT` branch of
`PAIR_GTpow` returns `f^e`, which is what the fallback `FP24_pow(f,f,e)` returns; and the
scalars it hands to `FP24_pow8` and the indices it conjugates are the scalars
`PAIR_G2mul` hands to `ECP4_mul8` and the indices it negates. -/
theorem PAIR_GTpow_gs_agrees {K : Type} [Field K] (c : Curve) (conj frob : K →+* K)
    (f : K) (e : ℤ) (he0 : 0 ≤ e) (heq : e ≤ c.CURVE_Order)
    (hq : f ^ c.CURVE_Order = 1) (hconj : conj f = f⁻¹) (hfrob : frob f = f ^ c.u) :
    PAIR_GTpow true c ⟨conj, frob⟩ f e = f ^ e ∧
    PAIR_GTpow true c ⟨conj, frob⟩ f e = PAIR_GTpow false c ⟨conj, frob⟩ f e ∧
    ∀ (G : Type) [AddCommGroup G] (frobG : G → G) (P : G),
      (PAIR_GTpow_fix c ⟨conj, frob⟩ f e).map (fun t => (t.1, t.2.2))
        = (PAIR_G2mul_fix c frobG P e).map (fun t => (t.1, t.2.2)) := by
  have h : PAIR_GTpow true c ⟨conj, frob⟩ f e = f ^ e := by
    by_cases hf : f = 0
    · have hq0 : c.CURVE_Order = 0 := by
        by_contra hne
        rw [hf, zero_zpow _ hne] at hq
        exact zero_ne_one hq
      have he : e = 0 := by omega
      rw [he, zpow_zero]
      exact PAIR_GTpow_zero c _ f hq0
    · exact PAIR_GTpow_eq c ⟨conj, frob⟩ (fun a k => map_zpow₀ conj a k)
        (fun a k => map_zpow₀ frob a k) (fun a ha => (map_ne_zero frob).mpr ha)
        (map_one frob) f e hf hq hconj hfrob
  refine ⟨h, ?_, ?_⟩
  · rw [h]
    rfl
  · intro G _ frobG P
    exact PAIR_GTpow_fix_eq_G2 c _ f frobG P e

theorem PAIR_GTpow_gs_agrees_witness :
    (0 : ℤ) ≤ 1 ∧ (1 : ℤ) ≤ toy3.CURVE_Order ∧
    PAIR_GTpow true toy3 ⟨RingHom.id ℚ, RingHom.id ℚ⟩ (-1) 1 = (-1 : ℚ) ^ (1 : ℤ) :=
  ⟨by decide, by decide,
    (PAIR_GTpow_gs_agrees toy3 (RingHom.id ℚ) (RingHom.id ℚ) (-1) 1 (by decide) (by decide)
      (by norm_num [toy3]) (by norm_num) (by norm_num [toy3, Curve.u])).1⟩

/-- C6 as stated fails: on the field of `p^24` elements of the BLS24 parameter
set `u = 10`, with conjugation and Frobenius the `p^12`-th and `p`-th power maps,
`PAIR_fexp(r) = r^((p^24-1)/q)` does not hold for every non-zero `r`. -/
theorem PAIR_fexp_misses_quotient_power :
    ¬ ∀ r : @GaloisField 2699730037 ⟨prime_2699730037⟩ 24, r ≠ 0 →
      PAIR_fexp bls10 (powOps _ 2699730037) r
        = r ^ ((((2699730037 : ℕ) : ℤ) ^ 24 - 1) / bls10.CURVE_Order) := by
  intro h
  haveI : Fact (Nat.Prime 2699730037) := ⟨prime_2699730037⟩
  haveI := Fintype.ofFinite (GaloisField 2699730037 24)
  have hcard : Fintype.card (GaloisField 2699730037 24) = 2699730037 ^ 24 := by
    rw [← Nat.card_eq_fintype_card]
    exact galois_card
  have hD : ((((2699730037 : ℕ) : ℤ) ^ 24 - 1) / bls10.CURVE_Order)
      = (((2699730037 ^ 24 - 1) / 99990001 : ℕ) : ℤ) := by
    norm_num [bls10]
  have hall : ∀ x : (GaloisField 2699730037 24)ˣ,
      x ^ (2 * ((2699730037 ^ 24 - 1) / 99990001)) = 1 := by
    intro x
    have hx : (x : GaloisField 2699730037 24) ≠ 0 := x.ne_zero
    have h1 := h x hx
    rw [PAIR_fexp_finite bls10 2699730037 _ galois_card bls10_order bls10_modulus bls10_even
      x hx, hD] at h1
    rw [Units.ext_iff, Units.val_pow_eq_pow_val, Units.val_one]
    exact pow_two_mul_eq_one _ hx _ h1
  have hd := (FiniteField.forall_pow_eq_one_iff (GaloisField 2699730037 24) _).mp hall
  rw [hcard] at hd
  have := Nat.le_of_dvd (by norm_num) hd
  norm_num at this

/-- C6 amended: for every non-zero `r` of a field of `p^24` elements, with
`FP24_conj` the `p^12`-th power, `FP24_frob(.,X,n)` the `p^n`-th power, `FP24_pow` the
ordinary power, and `q = u^8 - u^4 + 1`, `3p = (u-1)^2 q + 3u` for the signed even
parameter `u`, `PAIR_fexp(r) = r^(3 (p^24-1)/q)`. -/
theorem PAIR_fexp_exponent (c : Curve) (p : ℕ) (K : Type) [Field K] [Finite K]
    (hK : Nat.card K = p ^ 24) (hq : c.CURVE_Order = c.u ^ 8 - c.u ^ 4 + 1)
    (hp : 3 * (p : ℤ) = (c.u - 1) ^ 2 * c.CURVE_Order + 3 * c.u) (heven : 2 ∣ c.CURVE_Bnx)
    (r : K) (hr : r ≠ 0) :
    PAIR_fexp c (powOps K p) r = r ^ (3 * (((p : ℤ) ^ 24 - 1) / c.CURVE_Order)) :=
  PAIR_fexp_finite c p K hK hq hp heven r hr

theorem PAIR_fexp_exponent_witness :
    PAIR_fexp bls10 (powOps (@GaloisField 2699730037 ⟨prime_2699730037⟩ 24) 2699730037) 1
      = 1 ^ (3 * ((((2699730037 : ℕ) : ℤ) ^ 24 - 1) / bls10.CURVE_Order)) :=
  PAIR_fexp_exponent bls10 2699730037 (@GaloisField 2699730037 ⟨prime_2699730037⟩ 24)
    galois_card bls10_order bls10_modulus bls10_even 1 one_ne_zero

/-- C7 (the output of `PAIR_fexp` has order dividing `q`): for every non-zero `r`
of a field of `p^24` elements, under `q = u^8 - u^4 + 1`, `3p = (u-1)^2 q + 3u` with `u`
the signed even parameter, `PAIR_fexp(r)^q = 1`; `q` times the exponent applied by
`PAIR_fexp` (easy part times hard part) is a multiple of `p^24 - 1`; and
`PAIR_GTpow(PAIR_fexp(r), q)` is the identity, in the `USE_GS_GT` branch and in the
fallback. -/
theorem PAIR_fexp_order_q (c : Curve) (p : ℕ) (K : Type) [Field K] [Finite K]
    (hK : Nat.card K = p ^ 24) (hq : c.CURVE_Order = c.u ^ 8 - c.u ^ 4 + 1)
    (hp : 3 * (p : ℤ) = (c.u - 1) ^ 2 * c.CURVE_Order + 3 * c.u) (heven : 2 ∣ c.CURVE_Bnx)
    (r : K) (hr : r ≠ 0) :
    PAIR_fexp c (powOps K p) r ^ c.CURVE_Order = 1 ∧
    (PAIR_fexp c (powOps K p) r = r ^ ((((p : ℤ) ^ 12 - 1) * ((p : ℤ) ^ 4 + 1)) *
      (3 + (c.u - 1) ^ 2 * (c.u + p) * (c.u ^ 2 + (p : ℤ) ^ 2)
        * (c.u ^ 4 + (p : ℤ) ^ 4 - 1))) ∧
     ((p : ℤ) ^ 24 - 1) ∣ c.CURVE_Order * ((((p : ℤ) ^ 12 - 1) * ((p : ℤ) ^ 4 + 1)) *
      (3 + (c.u - 1) ^ 2 * (c.u + p) * (c.u ^ 2 + (p : ℤ) ^ 2)
        * (c.u ^ 4 + (p : ℤ) ^ 4 - 1)))) ∧
    PAIR_GTpow true c (powOps K p) (PAIR_fexp c (powOps K p) r) c.CURVE_Order = 1 ∧
    PAIR_GTpow false c (powOps K p) (PAIR_fexp c (powOps K p) r) c.CURVE_Order = 1 := by
  obtain ⟨hg0, hgq, hconj, hfrob⟩ := PAIR_fexp_subgroup c p K hK hq hp heven r hr
  refine ⟨hgq, ⟨?_, ?_⟩, ?_, ?_⟩
  · exact PAIR_fexp_zpow c p r hr (finite_field_zpow_card K p hK r hr) heven
  · exact ⟨3, by rw [fexp_exponent_identity c.u p c.CURVE_Order hq hp]; ring⟩
  · rw [powOps_GTpow c p _ _ hg0 hgq hconj hfrob, hgq]
  · exact hgq

theorem PAIR_fexp_order_q_witness :
    PAIR_fexp bls10 (powOps (@GaloisField 2699730037 ⟨prime_2699730037⟩ 24) 2699730037) 1
      ^ bls10.CURVE_Order = 1 :=
  (PAIR_fexp_order_q bls10 2699730037 (@GaloisField 2699730037 ⟨prime_2699730037⟩ 24)
    galois_card bls10_order bls10_modulus bls10_even 1 one_ne_zero).1

/-- C8 (order property): for `P` in G1 and `Q` in G2 with `q*P = 0`, `q*Q = 0`,
under the endomorphism hypotheses of the GLV and GS branches, `PAIR_G1mul(P, q)` and
`PAIR_G2mul(Q, q)` are the identity, the scalar `q` being decomposed as it is. -/
theorem PAIR_mul_order {G1 G2 : Type} [AddCommGroup G1] [AddCommGroup G2] (c : Curve)
    (mulCru : G1 → G1) (frob : G2 →+ G2) (P : G1) (Q : G2)
    (hP : c.CURVE_Order • P = 0) (hcru : mulCru P = (-(c.CURVE_Bnx ^ 4)) • P)
    (hQ : c.CURVE_Order • Q = 0) (hfrob : frob Q = c.u • Q) :
    PAIR_G1mul true c mulCru P c.CURVE_Order = 0 ∧
    PAIR_G2mul true c frob Q c.CURVE_Order = 0 := by
  constructor
  · rw [PAIR_G1mul_eq c mulCru P _ hP hcru, hP]
  · rw [PAIR_G2mul_eq c frob Q _ hQ hfrob, hQ]

theorem PAIR_mul_order_witness :
    PAIR_G1mul true toy2 (fun P => (-(toy2.CURVE_Bnx ^ 4)) • P) (1 : ZMod 241) 241 = 0 ∧
    PAIR_G2mul true toy2 (toy2.u • AddMonoidHom.id (ZMod 241)) (1 : ZMod 241) 241 = 0 :=
  PAIR_mul_order toy2 (fun P => (-(toy2.CURVE_Bnx ^ 4)) • P)
    (toy2.u • AddMonoidHom.id (ZMod 241)) (1 : ZMod 241) (1 : ZMod 241)
    (by rw [zsmul_eq_mul, mul_one]; rfl) rfl (by rw [zsmul_eq_mul, mul_one]; rfl) rfl

/-- C9 (gs decomposition): for `e >= 0` and `x = Bnx >= 2` the loop of `gs` sets
`u[i] = floor(e / x^i) mod x` for `i = 0..6` and `u[7] = floor(e / x^7)`; with positive
sign the sum of the `u[i] * x^i` is `e`, and with `NEGATIVEX`, where the odd pieces are
replaced by their negation modulo `q`, the sum of the `u[i] * (-x)^i` is congruent to `e`
modulo `q`. -/
theorem gs_decomposition (c : Curve) (e : ℤ) (_he : 0 ≤ e) (hx : 2 ≤ c.CURVE_Bnx) :
    (c.SIGN_OF_X = SignOfX.POSITIVEX →
      gs c e = [e % c.CURVE_Bnx, e / c.CURVE_Bnx % c.CURVE_Bnx,
        e / c.CURVE_Bnx ^ 2 % c.CURVE_Bnx, e / c.CURVE_Bnx ^ 3 % c.CURVE_Bnx,
        e / c.CURVE_Bnx ^ 4 % c.CURVE_Bnx, e / c.CURVE_Bnx ^ 5 % c.CURVE_Bnx,
        e / c.CURVE_Bnx ^ 6 % c.CURVE_Bnx, e / c.CURVE_Bnx ^ 7] ∧
      ∑ i in Finset.range 8, (gs c e).getD i 0 * c.CURVE_Bnx ^ i = e) ∧
    (c.SIGN_OF_X = SignOfX.NEGATIVEX →
      gs c e = [e % c.CURVE_Bnx, BIG_modneg (e / c.CURVE_Bnx % c.CURVE_Bnx) c.CURVE_Order,
        e / c.CURVE_Bnx ^ 2 % c.CURVE_Bnx,
        BIG_modneg (e / c.CURVE_Bnx ^ 3 % c.CURVE_Bnx) c.CURVE_Order,
        e / c.CURVE_Bnx ^ 4 % c.CURVE_Bnx,
        BIG_modneg (e / c.CURVE_Bnx ^ 5 % c.CURVE_Bnx) c.CURVE_Order,
        e / c.CURVE_Bnx ^ 6 % c.CURVE_Bnx,
        BIG_modneg (e / c.CURVE_Bnx ^ 7) c.CURVE_Order] ∧
      ∑ i in Finset.range 8, (gs c e).getD i 0 * (-c.CURVE_Bnx) ^ i ≡ e
        [ZMOD c.CURVE_Order]) := by
  have hx0 : 0 ≤ c.CURVE_Bnx := by omega
  have hl := gs_loop_explicit c.CURVE_Bnx e _he hx0
  have hs := evalBase_gs_loop c.CURVE_Bnx 7 e
  rw [hl] at hs
  simp only [evalBase] at hs
  constructor
  · intro hp
    have hg : gs c e = gs_loop c.CURVE_Bnx 7 e := by simp [gs, hp]
    rw [hg, hl]
    refine ⟨rfl, ?_⟩
    simp only [Finset.sum_range_succ, Finset.sum_range_zero, List.getD_cons_zero,
      List.getD_cons_succ]
    linear_combination hs
  · intro hn
    have hg : gs c e = [e % c.CURVE_Bnx,
        BIG_modneg (e / c.CURVE_Bnx % c.CURVE_Bnx) c.CURVE_Order,
        e / c.CURVE_Bnx ^ 2 % c.CURVE_Bnx,
        BIG_modneg (e / c.CURVE_Bnx ^ 3 % c.CURVE_Bnx) c.CURVE_Order,
        e / c.CURVE_Bnx ^ 4 % c.CURVE_Bnx,
        BIG_modneg (e / c.CURVE_Bnx ^ 5 % c.CURVE_Bnx) c.CURVE_Order,
        e / c.CURVE_Bnx ^ 6 % c.CURVE_Bnx,
        BIG_modneg (e / c.CURVE_Bnx ^ 7) c.CURVE_Order] := by
      simp only [gs, hn, hl]
      simp only [List.set_cons_succ, List.set_cons_zero, List.getD_cons_zero,
        List.getD_cons_succ]
    rw [hg]
    refine ⟨rfl, ?_⟩
    simp only [Finset.sum_range_succ, Finset.sum_range_zero, List.getD_cons_zero,
      List.getD_cons_succ, BIG_modneg]
    rw [Int.modEq_iff_dvd]
    refine ⟨c.CURVE_Bnx * (1 + e / c.CURVE_Bnx % c.CURVE_Bnx / c.CURVE_Order)
      + c.CURVE_Bnx ^ 3 * (1 + e / c.CURVE_Bnx ^ 3 % c.CURVE_Bnx / c.CURVE_Order)
      + c.CURVE_Bnx ^ 5 * (1 + e / c.CURVE_Bnx ^ 5 % c.CURVE_Bnx / c.CURVE_Order)
      + c.CURVE_Bnx ^ 7 * (1 + e / c.CURVE_Bnx ^ 7 / c.CURVE_Order), ?_⟩
    rw [Int.emod_def (e / c.CURVE_Bnx % c.CURVE_Bnx) c.CURVE_Order,
      Int.emod_def (e / c.CURVE_Bnx ^ 3 % c.CURVE_Bnx) c.CURVE_Order,
      Int.emod_def (e / c.CURVE_Bnx ^ 5 % c.CURVE_Bnx) c.CURVE_Order,
      Int.emod_def (e / c.CURVE_Bnx ^ 7) c.CURVE_Order]
    linear_combination (-1 : ℤ) * hs

theorem gs_decomposition_witness :
    (0 : ℤ) ≤ 1000 ∧ (2 : ℤ) ≤ toy2.CURVE_Bnx ∧
    ∑ i in Finset.range 8, (gs toy2 1000).getD i 0 * (-toy2.CURVE_Bnx) ^ i ≡ 1000
      [ZMOD toy2.CURVE_Order] :=
  ⟨by decide, by decide, ((gs_decomposition toy2 1000 (by decide) (by decide)).2 rfl).2⟩

/-- C10 (glv decomposition): for `e >= 0` with `floor(e / Bnx^4) <= q`, `glv`
returns `u[0] = e mod Bnx^4` and `u[1] = q - floor(e / Bnx^4)`, and
`e = u[0] + u[1] * lambda (mod q)` for `lambda = -(Bnx^4) mod q`. -/
theorem glv_decomposition (c : Curve) (e : ℤ) (_he : 0 ≤ e)
    (_hq : e / c.CURVE_Bnx ^ 4 ≤ c.CURVE_Order) :
    glv c e = (e % c.CURVE_Bnx ^ 4, c.CURVE_Order - e / c.CURVE_Bnx ^ 4) ∧
    e ≡ (glv c e).1 + (glv c e).2 * (-(c.CURVE_Bnx ^ 4) % c.CURVE_Order)
      [ZMOD c.CURVE_Order] := by
  have hx : c.CURVE_Bnx * c.CURVE_Bnx * (c.CURVE_Bnx * c.CURVE_Bnx) = c.CURVE_Bnx ^ 4 := by ring
  have h1 : glv c e = (e % c.CURVE_Bnx ^ 4, c.CURVE_Order - e / c.CURVE_Bnx ^ 4) := by
    simp only [glv, hx]
  refine ⟨h1, ?_⟩
  rw [h1]
  rw [Int.modEq_iff_dvd]
  refine ⟨-(-(c.CURVE_Bnx ^ 4) / c.CURVE_Order * (c.CURVE_Order - e / c.CURVE_Bnx ^ 4))
    - c.CURVE_Bnx ^ 4, ?_⟩
  have h2 := Int.emod_def (-(c.CURVE_Bnx ^ 4)) c.CURVE_Order
  have h3 := Int.emod_add_ediv e (c.CURVE_Bnx ^ 4)
  simp only
  rw [h2]
  linear_combination h3

theorem glv_decomposition_witness :
    (0 : ℤ) ≤ 1000 ∧ (1000 : ℤ) / toy2.CURVE_Bnx ^ 4 ≤ toy2.CURVE_Order ∧
    glv toy2 1000 = (1000 % toy2.CURVE_Bnx ^ 4, toy2.CURVE_Order - 1000 / toy2.CURVE_Bnx ^ 4) :=
  ⟨by decide, by decide, (glv_decomposition toy2 1000 (by decide) (by decide)).1⟩

/-! ## Line values, final exponentiation parts and piece bounds -/

/-- The Frobenius iterated on `1` is `1` when one application fixes `1`. -/
theorem FP24_frob_one {K : Type} [One K] (o : FP24Ops K) (hf : o.frob1 1 = 1) (n : ℕ) :
    FP24_frob o 1 n = 1 := by
  unfold FP24_frob
  exact Function.iterate_fixed hf n

/-- The final exponentiation fixes `1` when conjugation and Frobenius do. -/
theorem fexp_fixes_one {K : Type} [DivisionCommMonoid K] (c : Curve) (o : FP24Ops K)
    (hc : o.FP24_conj 1 = 1) (hf : o.frob1 1 = 1) : PAIR_fexp c o 1 = 1 := by
  have he : PAIR_fexp_easy o 1 = 1 := by
    simp [PAIR_fexp_easy, hc, FP24_frob_one o hf]
  have hn : conjIfNeg c o 1 = 1 := by
    unfold conjIfNeg
    cases c.SIGN_OF_X with
    | POSITIVEX => rfl
    | NEGATIVEX => exact hc
  unfold PAIR_fexp
  rw [he]
  simp [PAIR_fexp_hard, FP24_pow, hc, hn, FP24_frob_one o hf]

/-- C12 (sparsity of the line value): in the doubling and in the addition branch, of the
three `FP8` components `(a,b,c)` that `PAIR_line` packs into its `FP24` value, `c` is the
additive identity for a `D_TYPE` twist and `b` is the additive identity for an `M_TYPE`
twist, whatever the accumulator, the second point and the G1 coordinates. -/
theorem PAIR_line_sparse {Fp F K E : Type} [CommRing F] (c : Curve) (o : LineOps Fp F K)
    (e4 : ECP4Ops F E) (A : E) (B : Option E) (Qx Qy : Fp) :
    (c.SEXTIC_TWIST = SexticTwist.D_TYPE →
      (PAIR_line_abc c o e4 A B Qx Qy).1.2.2 = FP8_zero) ∧
    (c.SEXTIC_TWIST = SexticTwist.M_TYPE →
      (PAIR_line_abc c o e4 A B Qx Qy).1.2.1 = FP8_zero) ∧
    (PAIR_line c o e4 A B Qx Qy).1 = o.FP24_from_FP8s (PAIR_line_abc c o e4 A B Qx Qy).1.1
      (PAIR_line_abc c o e4 A B Qx Qy).1.2.1 (PAIR_line_abc c o e4 A B Qx Qy).1.2.2 := by
  refine ⟨?_, ?_, rfl⟩
  · intro h
    cases B <;> simp [PAIR_line_abc, h]
  · intro h
    cases B <;> simp [PAIR_line_abc, h]

theorem PAIR_line_sparse_witness :
    (PAIR_line_abc toy2 gaussLine gaussPoints (⟨0, 1⟩, ⟨1, -1⟩, 1) none 2 3).1.2.2 = FP8_zero ∧
    (PAIR_line_abc toy3 gaussLine gaussPoints (3, 5, 1) (some (1, 2, 1)) 2 3).1.2.1
      = FP8_zero :=
  ⟨(PAIR_line_sparse toy2 gaussLine gaussPoints (⟨0, 1⟩, ⟨1, -1⟩, 1) none 2 3).1 rfl,
    (PAIR_line_sparse toy3 gaussLine gaussPoints (3, 5, 1) (some (1, 2, 1)) 2 3).2.1 rfl⟩

/-- C13 (`PAIR_fexp` fixes the identity): `PAIR_fexp(1) = 1` for every value and sign of
the curve parameter, with conjugation and Frobenius field homomorphisms, and also with
conjugation and Frobenius the `p^12`-th and `p`-th power maps. -/
theorem PAIR_fexp_one {K : Type} [Field K] (c : Curve) (conj frob : K →+* K) :
    PAIR_fexp c ⟨conj, frob⟩ 1 = 1 ∧ ∀ p : ℕ, PAIR_fexp c (powOps K p) 1 = 1 :=
  ⟨fexp_fixes_one c ⟨conj, frob⟩ (map_one conj) (map_one frob),
    fun p => fexp_fixes_one c (powOps K p) (one_pow _) (one_pow _)⟩

/-- C14 (easy part): for every non-zero `r`, with `FP24_conj` the `p^12`-th power map and
`FP24_frob(.,X,4)` the `p^4`-th power map, the value after lines 303-311 is
`r^((p^12 - 1)(p^4 + 1))`. -/
theorem PAIR_fexp_easy_exponent {K : Type} [Field K] (o : FP24Ops K) (p : ℕ)
    (hconj : ∀ a, o.FP24_conj a = a ^ (p ^ 12)) (hfrob : ∀ a, FP24_frob o a 4 = a ^ (p ^ 4))
    (r : K) (hr : r ≠ 0) :
    PAIR_fexp_easy o r = r ^ (((p : ℤ) ^ 12 - 1) * ((p : ℤ) ^ 4 + 1)) := by
  unfold PAIR_fexp_easy
  simp only [hfrob, hconj]
  have h1 : r ^ p ^ 12 * r⁻¹ = r ^ ((p : ℤ) ^ 12 - 1) := by
    rw [zpow_sub₀ hr, zpow_one, div_eq_mul_inv]
    norm_cast
  rw [h1, ← zpow_natCast, ← zpow_mul, ← zpow_add₀ hr]
  congr 1
  push_cast
  ring

theorem PAIR_fexp_easy_exponent_witness :
    PAIR_fexp_easy (powOps ℚ 2) 3 = (3 : ℚ) ^ ((((2 : ℕ) : ℤ) ^ 12 - 1) * (((2 : ℕ) : ℤ) ^ 4 + 1)) :=
  PAIR_fexp_easy_exponent (powOps ℚ 2) 2 (fun _ => rfl)
    (fun a => FP24_frob_pow (powOps ℚ 2) 2 (fun _ => rfl) a 4) 3 (by norm_num)

/-- The pieces of the loop of `gs` are digits: non-negative and below `x`. -/
theorem gs_loop_bounds (x : ℤ) (hx : 0 < x) (n : ℕ) (w : ℤ) (hw0 : 0 ≤ w)
    (hw : w < x ^ (n + 1)) : ∀ u ∈ gs_loop x n w, 0 ≤ u ∧ u < x := by
  induction n generalizing w with
  | zero =>
    intro u hu
    simp only [gs_loop, List.mem_singleton] at hu
    subst hu
    exact ⟨hw0, by simpa using hw⟩
  | succ n ih =>
    intro u hu
    simp only [gs_loop, List.mem_cons] at hu
    rcases hu with rfl | hu
    · exact ⟨Int.emod_nonneg _ (ne_of_gt hx), Int.emod_lt_of_pos _ hx⟩
    · refine ih (w / x) (Int.ediv_nonneg hw0 (le_of_lt hx)) ?_ u hu
      apply Int.ediv_lt_of_lt_mul hx
      rw [pow_succ] at hw
      exact hw

/-- C19 (gs piece bounds): for `x = Bnx >= 2` and `0 <= e < x^8`, in particular for every
`e < x^8 - x^4 + 1`, each of the eight pieces produced by the loop of `gs`, before the
sign adjustment, satisfies `0 <= u[i] < x`, and so has at most `nbits(x)` bits. -/
theorem gs_piece_bounds (c : Curve) (e : ℤ) (he : 0 ≤ e) (hx : 2 ≤ c.CURVE_Bnx)
    (hlt : e < c.CURVE_Bnx ^ 8) :
    (gs_loop c.CURVE_Bnx 7 e).length = 8 ∧
    (∀ u ∈ gs_loop c.CURVE_Bnx 7 e,
      0 ≤ u ∧ u < c.CURVE_Bnx ∧ BIG_nbits u ≤ BIG_nbits c.CURVE_Bnx) ∧
    (c.SIGN_OF_X = SignOfX.POSITIVEX → gs c e = gs_loop c.CURVE_Bnx 7 e) ∧
    c.CURVE_Bnx ^ 8 - c.CURVE_Bnx ^ 4 + 1 ≤ c.CURVE_Bnx ^ 8 := by
  refine ⟨gs_loop_length _ _ _, ?_, ?_, ?_⟩
  · intro u hu
    obtain ⟨h0, h1⟩ := gs_loop_bounds c.CURVE_Bnx (by omega) 7 e he hlt u hu
    refine ⟨h0, h1, ?_⟩
    unfold BIG_nbits
    apply Nat.size_le_size
    omega
  · intro hp
    simp [gs, hp]
  · have : 1 ≤ c.CURVE_Bnx ^ 4 := one_le_pow₀ (by omega)
    omega

theorem gs_piece_bounds_witness :
    (0 : ℤ) ≤ 200 ∧ (2 : ℤ) ≤ toy2.CURVE_Bnx ∧ (200 : ℤ) < toy2.CURVE_Bnx ^ 8 ∧
    ∀ u ∈ gs_loop toy2.CURVE_Bnx 7 200,
      0 ≤ u ∧ u < toy2.CURVE_Bnx ∧ BIG_nbits u ≤ BIG_nbits toy2.CURVE_Bnx :=
  ⟨by decide, by decide, by decide,
    (gs_piece_bounds toy2 200 (by decide) (by decide) (by decide)).2.1⟩

/-- The hard part raises a non-zero `f` to `3 + (u-1)^2 (u+p) (u^2+p^2) (u^4+p^4-1)` when
conjugation inverts the powers of `f` and the Frobenius is the `p`-th power map. -/
theorem PAIR_fexp_hard_eq_of_conj {K : Type} [Field K] (c : Curve) (o : FP24Ops K) (p : ℕ)
    (hfrob : ∀ a, o.frob1 a = a ^ p) (f : K) (hf : f ≠ 0)
    (e_conj : ∀ a : ℤ, o.FP24_conj (f ^ a) = f ^ (-a)) (heven : 2 ∣ c.CURVE_Bnx) :
    PAIR_fexp_hard c o f = f ^ (3 + (c.u - 1) ^ 2 * (c.u + p) * (c.u ^ 2 + (p : ℤ) ^ 2)
      * (c.u ^ 4 + (p : ℤ) ^ 4 - 1)) := by
  have e_mul : ∀ a b : ℤ, f ^ a * f ^ b = f ^ (a + b) := fun a b => (zpow_add₀ hf a b).symm
  have e_pow : ∀ a b : ℤ, (f ^ a) ^ b = f ^ (a * b) := fun a b => (zpow_mul f a b).symm
  have e_frob : ∀ (a : ℤ) (n : ℕ), FP24_frob o (f ^ a) n = f ^ (a * (p : ℤ) ^ n) := by
    intro a n
    rw [FP24_frob_pow o p hfrob, ← zpow_natCast, ← zpow_mul]
    push_cast
    rfl
  obtain ⟨h, hh⟩ := heven
  have hx2 : c.CURVE_Bnx / 2 = h := by
    rw [hh]
    simp
  rw [show PAIR_fexp_hard c o f = PAIR_fexp_hard c o (f ^ (1 : ℤ)) by rw [zpow_one]]
  unfold PAIR_fexp_hard
  simp only [FP24_pow, BIG_fshr1, BIG_fshl1, hx2]
  cases hs : c.SIGN_OF_X with
  | POSITIVEX =>
    have hu : c.u = 2 * h := by simp [Curve.u, hs, hh]
    simp only [conjIfNeg, hs, e_mul, e_pow, e_conj, e_frob, hu, hh]
    congr 1
    ring
  | NEGATIVEX =>
    have hu : c.u = -(2 * h) := by simp [Curve.u, hs, hh]
    simp only [conjIfNeg, hs, e_mul, e_pow, e_conj, e_frob, hu, hh]
    congr 1
    ring

/-- The exponent of the hard part is never zero. -/
theorem hard_exponent_ne_zero (u : ℤ) (p : ℕ) :
    3 + (u - 1) ^ 2 * (u + p) * (u ^ 2 + (p : ℤ) ^ 2) * (u ^ 4 + (p : ℤ) ^ 4 - 1) ≠ 0 := by
  intro h
  have hp0 : (0 : ℤ) ≤ p := Int.natCast_nonneg p
  have hd : (u - 1) ^ 2 ∣ (3 : ℤ) :=
    ⟨-((u + p) * (u ^ 2 + (p : ℤ) ^ 2) * (u ^ 4 + (p : ℤ) ^ 4 - 1)), by linarith⟩
  have hle : (u - 1) ^ 2 ≤ 3 := Int.le_of_dvd (by norm_num) hd
  have h1 : u - 1 ≤ 1 := by nlinarith
  have h2 : -1 ≤ u - 1 := by nlinarith
  have h3 : u = 0 ∨ u = 1 ∨ u = 2 := by omega
  rcases h3 with rfl | rfl | rfl
  · rcases Nat.eq_zero_or_pos p with rfl | hpos
    · simp at h
    · have h4 : (1 : ℤ) ≤ p := by exact_mod_cast hpos
      have h5 : (1 : ℤ) ≤ (p : ℤ) ^ 4 := one_le_pow₀ h4
      have h6 : (0 : ℤ) ≤ (p : ℤ) * ((p : ℤ) ^ 2) * ((p : ℤ) ^ 4 - 1) :=
        mul_nonneg (mul_nonneg hp0 (by positivity)) (by linarith)
      nlinarith
  · simp at h
  · have h6 : (0 : ℤ) ≤ (2 + (p : ℤ)) * (2 ^ 2 + (p : ℤ) ^ 2) * (2 ^ 4 + (p : ℤ) ^ 4 - 1) :=
      mul_nonneg (mul_nonneg (by linarith) (by positivity))
        (by have : (0 : ℤ) ≤ (p : ℤ) ^ 4 := by positivity
            linarith)
    nlinarith

/-- C15 (hard part, both signs): for every `f` with `conj(f) = 1/f` and every even `Bnx`,
with conjugation a field homomorphism, `FP24_pow` the ordinary power, `FP24_usqr` the
square and `FP24_frob(.,X,n)` the `p^n`-th power map, lines 315-389 return
`f^(3 + (u-1)^2 (u+p) (u^2+p^2) (u^4+p^4-1))` for the signed parameter `u`, `+Bnx` for
positive sign and `-Bnx` for `NEGATIVEX`. -/
theorem PAIR_fexp_hard_exponent {K : Type} [Field K] (c : Curve) (conj : K →+* K) (p : ℕ)
    (f : K) (hconj : conj f = f⁻¹) (heven : 2 ∣ c.CURVE_Bnx) :
    PAIR_fexp_hard c ⟨conj, fun a => a ^ p⟩ f
      = f ^ (3 + (c.u - 1) ^ 2 * (c.u + p) * (c.u ^ 2 + (p : ℤ) ^ 2)
        * (c.u ^ 4 + (p : ℤ) ^ 4 - 1)) := by
  by_cases hf : f = 0
  · subst hf
    rw [zero_zpow _ (hard_exponent_ne_zero c.u p)]
    unfold PAIR_fexp_hard
    simp only [zero_mul]
  · refine PAIR_fexp_hard_eq_of_conj c ⟨conj, fun a => a ^ p⟩ p (fun _ => rfl) f hf ?_ heven
    intro a
    show conj (f ^ a) = f ^ (-a)
    rw [map_zpow₀, hconj, inv_zpow, zpow_neg]

theorem PAIR_fexp_hard_exponent_witness :
    PAIR_fexp_hard toy2 ⟨RingHom.id ℚ, fun a => a ^ 3⟩ (-1)
      = (-1 : ℚ) ^ (3 + (toy2.u - 1) ^ 2 * (toy2.u + (3 : ℕ)) * (toy2.u ^ 2 + ((3 : ℕ) : ℤ) ^ 2)
        * (toy2.u ^ 4 + ((3 : ℕ) : ℤ) ^ 4 - 1)) :=
  PAIR_fexp_hard_exponent toy2 (RingHom.id ℚ) 3 (-1) (by norm_num) ⟨1, rfl⟩

/-- C16 as stated fails for an `M_TYPE` twist: on Gaussian integers, with
`A = (3,5,1)`, `B = (1,2)`, `Qx = 2`, `Qy = 3`, the first component of the `FP8` `a` of the
addition line is `i * ((X1 - Z1*X2) * Qy) = 6i`, not `(X1 - Z1*X2) * Qy = 6`. -/
theorem PAIR_line_add_M_TYPE_times_i :
    (PAIR_line_abc toy3 gaussLine gaussPoints (3, 5, 1) (some (1, 2, 1)) 2 3).1.1.a
      = ⟨0, 6⟩ ∧
    gaussLine.FP4_qmul ((3 : GaussianInt) - 1 * 1) 3 = ⟨6, 0⟩ ∧
    (PAIR_line_abc toy3 gaussLine gaussPoints (3, 5, 1) (some (1, 2, 1)) 2 3).1.1.a
      ≠ gaussLine.FP4_qmul ((3 : GaussianInt) - 1 * 1) 3 := by
  decide

/-- C16 amended (addition-branch line value): for `A = (X1,Y1,Z1)` and a distinct
`B = (X2,Y2)`, `PAIR_line` packs into the `FP8` `a` the components `(X1 - Z1*X2)*Qy`,
multiplied by `i` (`FP4_times_i`) when the twist is `M_TYPE`, and
`(Y1 - Z1*Y2)*X2 - (X1 - Z1*X2)*Y2`; it packs `-(Y1 - Z1*Y2)*Qx` into `b` for `D_TYPE`
and into the high half of `c` for `M_TYPE`, the other one being zero; and it leaves
`A` equal to `ECP4_add(A,B)`, the point `B` being only read. -/
theorem PAIR_line_add_value {Fp F K E : Type} [CommRing F] (c : Curve) (o : LineOps Fp F K)
    (e4 : ECP4Ops F E) (A B : E) (Qx Qy : Fp) :
    (PAIR_line_abc c o e4 A (some B) Qx Qy).1.1
      = FP8_from_FP4s
        (match c.SEXTIC_TWIST with
          | SexticTwist.D_TYPE => o.FP4_qmul (e4.x A - e4.z A * e4.x B) Qy
          | SexticTwist.M_TYPE => o.FP4_times_i (o.FP4_qmul (e4.x A - e4.z A * e4.x B) Qy))
        ((e4.y A - e4.z A * e4.y B) * e4.x B - (e4.x A - e4.z A * e4.x B) * e4.y B) ∧
    (PAIR_line_abc c o e4 A (some B) Qx Qy).1.2
      = (match c.SEXTIC_TWIST with
          | SexticTwist.D_TYPE =>
            (FP8_from_FP4 (-(o.FP4_qmul (e4.y A - e4.z A * e4.y B) Qx)), FP8_zero)
          | SexticTwist.M_TYPE =>
            (FP8_zero, FP8_from_FP4H (-(o.FP4_qmul (e4.y A - e4.z A * e4.y B) Qx)))) ∧
    (PAIR_line_abc c o e4 A (some B) Qx Qy).2 = e4.ECP4_add A B ∧
    (PAIR_line c o e4 A (some B) Qx Qy).2 = e4.ECP4_add A B := by
  unfold PAIR_line PAIR_line_abc
  cases c.SEXTIC_TWIST <;> simp

/-- C18 (the doubling line is the tangent at `A`): in the doubling branch the code builds
`cy = -4YZ`, `cx = 6X^2` and `c0 = 6b'Z^2 - 2Y^2`, where `6b'Z^2` is what lines 63-76 make
of `Z^2`, and packs `cy*Qy` (times `i` for `M_TYPE`), `c0` and `cx*Qx`; for every
`A = (X,Y,Z)` on the twist curve `Y^2 Z = X^3 + b' Z^3`, over any commutative ring,
`cy*Y + cx*X + c0*Z = 0`. -/
theorem PAIR_line_dbl_tangent {Fp F K E : Type} [CommRing F] (c : Curve) (o : LineOps Fp F K)
    (e4 : ECP4Ops F E) (A : E) (Qx Qy : Fp) (b' : F)
    (hb : PAIR_line_bZZ c o (e4.z A * e4.z A) = 6 * b' * e4.z A ^ 2)
    (hcurve : e4.y A ^ 2 * e4.z A = e4.x A ^ 3 + b' * e4.z A ^ 3) :
    (PAIR_line_abc c o e4 A none Qx Qy).1
      = (FP8_from_FP4s
          (match c.SEXTIC_TWIST with
            | SexticTwist.D_TYPE => o.FP4_qmul (-(4 * e4.y A * e4.z A)) Qy
            | SexticTwist.M_TYPE => o.FP4_times_i (o.FP4_qmul (-(4 * e4.y A * e4.z A)) Qy))
          (6 * b' * e4.z A ^ 2 - 2 * e4.y A ^ 2),
        match c.SEXTIC_TWIST with
          | SexticTwist.D_TYPE => (FP8_from_FP4 (o.FP4_qmul (6 * e4.x A ^ 2) Qx), FP8_zero)
          | SexticTwist.M_TYPE => (FP8_zero, FP8_from_FP4H (o.FP4_qmul (6 * e4.x A ^ 2) Qx))) ∧
    (-(4 * e4.y A * e4.z A)) * e4.y A + (6 * e4.x A ^ 2) * e4.x A
      + (6 * b' * e4.z A ^ 2 - 2 * e4.y A ^ 2) * e4.z A = 0 := by
  have h4 : -(e4.y A * e4.z A * ((4 : ℤ) : F)) = -(4 * e4.y A * e4.z A) := by
    push_cast
    ring
  have h6 : e4.x A * e4.x A * ((6 : ℤ) : F) = 6 * e4.x A ^ 2 := by
    push_cast
    ring
  have h2 : e4.y A * e4.y A + e4.y A * e4.y A = 2 * e4.y A ^ 2 := by ring
  constructor
  · unfold PAIR_line_bZZ at hb
    unfold PAIR_line_abc
    cases hs : c.SEXTIC_TWIST <;> simp only [hs] at hb ⊢ <;> simp only [h4, h6, h2, hb]
  · linear_combination (-6 : F) * hcurve

theorem PAIR_line_dbl_tangent_witness :
    (-(4 * (⟨1, -1⟩ : GaussianInt) * 1)) * ⟨1, -1⟩ + (6 * (⟨0, 1⟩ : GaussianInt) ^ 2) * ⟨0, 1⟩
      + (6 * (⟨0, -1⟩ : GaussianInt) * 1 ^ 2 - 2 * (⟨1, -1⟩ : GaussianInt) ^ 2) * 1 = 0 :=
  (PAIR_line_dbl_tangent toy2 gaussLine gaussPoints (⟨0, 1⟩, ⟨1, -1⟩, 1) 2 3 ⟨0, -1⟩
    (by decide) (by decide)).2

/-! ## The point accumulator of the Miller loops -/

/-- A bit is `0` or `1`. -/
theorem BIG_bit_cases (a : ℤ) (i : ℕ) : BIG_bit a i = 0 ∨ BIG_bit a i = 1 := by
  unfold BIG_bit
  split_ifs
  · exact Or.inr rfl
  · exact Or.inl rfl

/-- Bit `i` of `m` is what `floor(m / 2^i)` adds to twice `floor(m / 2^(i+1))`. -/
theorem BIG_bit_div (m i : ℕ) :
    ((m / 2 ^ i : ℕ) : ℤ) = 2 * ((m / 2 ^ (i + 1) : ℕ) : ℤ) + BIG_bit (m : ℤ) i := by
  unfold BIG_bit
  rw [Int.toNat_natCast, Nat.testBit_to_div_mod]
  have h1 : m / 2 ^ (i + 1) = m / 2 ^ i / 2 := by rw [pow_succ, Nat.div_div_eq_div_mul]
  rw [h1]
  generalize m / 2 ^ i = k
  by_cases h : k % 2 = 1
  · simp only [h, decide_True, if_true]
    omega
  · simp only [h, decide_False]
    simp only [Bool.false_eq_true, if_false]
    omega

/-- The point component of one iteration of `PAIR_ate` in the group model. -/
theorem PAIR_ate_step_point {Fp F K E : Type} [CommRing F] [CommMonoid K] [AddCommGroup E]
    (c : Curve) (o : LineOps Fp F K) (x y z : E → F) (n n3 : ℤ) (P : E) (Qx Qy : Fp)
    (s : K × E) (i : ℕ) :
    (PAIR_ate_step c o (groupOps x y z) n n3 P (-P) Qx Qy s i).2
      = (s.2 + s.2) + (BIG_bit n3 i - BIG_bit n i) • P := by
  unfold PAIR_ate_step PAIR_line PAIR_line_abc groupOps
  rcases BIG_bit_cases n3 i with h3 | h3 <;> rcases BIG_bit_cases n i with h1 | h1 <;>
    simp [h3, h1]

/-- The point accumulator after the indices `m, ..., 1`, started at
`(floor(3n/2^(m+1)) - floor(n/2^(m+1))) P`, is `(floor(3n/2) - floor(n/2)) P`. -/
theorem PAIR_ate_loop_point {Fp F K E : Type} [CommRing F] [CommMonoid K] [AddCommGroup E]
    (c : Curve) (o : LineOps Fp F K) (x y z : E → F) (n : ℕ) (P : E) (Qx Qy : Fp) (m : ℕ) :
    ∀ s : K × E,
      s.2 = ((((n * 3) / 2 ^ (m + 1) : ℕ) : ℤ) - ((n / 2 ^ (m + 1) : ℕ) : ℤ)) • P →
      ((downFrom m).foldl
        (PAIR_ate_step c o (groupOps x y z) (n : ℤ) ((n * 3 : ℕ) : ℤ) P (-P) Qx Qy) s).2
        = ((((n * 3) / 2 ^ 1 : ℕ) : ℤ) - ((n / 2 ^ 1 : ℕ) : ℤ)) • P := by
  induction m with
  | zero =>
    intro s hs
    simpa [downFrom] using hs
  | succ m ih =>
    intro s hs
    simp only [downFrom, List.foldl_cons]
    apply ih
    rw [PAIR_ate_step_point, hs, ← add_smul, ← add_smul]
    congr 1
    linarith [BIG_bit_div (n * 3) (m + 1), BIG_bit_div n (m + 1)]

/-- The digits `bt_i` of the Miller loop sum up, with weights `2^(i-1)`, to
`floor(3n/2) - floor(n/2)` less the part above index `k`. -/
theorem miller_digit_sum (n k : ℕ) :
    ∑ i in Finset.Icc 1 k,
        (BIG_bit ((n * 3 : ℕ) : ℤ) i - BIG_bit (n : ℤ) i) * 2 ^ (i - 1)
      + 2 ^ k * ((((n * 3) / 2 ^ (k + 1) : ℕ) : ℤ) - ((n / 2 ^ (k + 1) : ℕ) : ℤ))
      = (((n * 3) / 2 ^ 1 : ℕ) : ℤ) - ((n / 2 ^ 1 : ℕ) : ℤ) := by
  induction k with
  | zero => simp
  | succ k ih =>
    rw [Finset.sum_Icc_succ_top (by omega)]
    have h3 := BIG_bit_div (n * 3) (k + 1)
    have h1 := BIG_bit_div n (k + 1)
    simp only [Nat.add_sub_cancel]
    linear_combination ih - (2 : ℤ) ^ k * h3 + (2 : ℤ) ^ k * h1

/-- Size facts for `3n`, `n >= 1`: with `nb = nbits(3n)`, `nb >= 2`,
`floor(3n / 2^(nb-1)) = 1`, `floor(n / 2^(nb-1)) = 0` and both quotients by `2^nb` vanish. -/
theorem size_three_mul (n : ℕ) (hn : 1 ≤ n) :
    2 ≤ Nat.size (n * 3) ∧ (n * 3) / 2 ^ (Nat.size (n * 3) - 1) = 1 ∧
    n / 2 ^ (Nat.size (n * 3) - 1) = 0 ∧ (n * 3) / 2 ^ Nat.size (n * 3) = 0 ∧
    n / 2 ^ Nat.size (n * 3) = 0 := by
  have hlt : n * 3 < 2 ^ Nat.size (n * 3) := Nat.lt_size_self _
  have h2 : 2 ≤ Nat.size (n * 3) := by
    have : 1 < Nat.size (n * 3) := Nat.lt_size.mpr (by omega)
    omega
  have hge : 2 ^ (Nat.size (n * 3) - 1) ≤ n * 3 := Nat.lt_size.mp (by omega)
  have hpow : 2 ^ Nat.size (n * 3) = 2 * 2 ^ (Nat.size (n * 3) - 1) := by
    conv_lhs => rw [show Nat.size (n * 3) = (Nat.size (n * 3) - 1) + 1 by omega]
    rw [pow_succ, mul_comm]
  rw [hpow] at hlt
  refine ⟨h2, ?_, ?_, ?_, ?_⟩
  · exact Nat.div_eq_of_lt_le (by omega) (by omega)
  · exact Nat.div_eq_of_lt (by omega)
  · rw [hpow]
    exact Nat.div_eq_of_lt hlt
  · rw [hpow]
    exact Nat.div_eq_of_lt (by omega)

/-- C17 (point accumulator of the Miller loop): for `x = Bnx >= 1`, with the point update
of `PAIR_line` the doubling `A := 2A` or the addition `A := A + B` of an abelian group,
the accumulator at the end of the loop over `i = nbits(3x)-2 .. 1` with digits
`bt_i = bit_i(3x) - bit_i(x)` is `x*P`, and in `PAIR_double_ate` the two accumulators are
`x*P` and `x*R`; the digits satisfy `bt_0 = 0`, `bt_(nbits(3x)-1) = 1` and the sum of
`bt_i * 2^(i-1)` over `1 <= i <= nbits(3x)-1` is `x`. -/
theorem miller_accumulator {Fp F K E E1 : Type} [CommRing F] [CommMonoid K]
    [AddCommGroup E] (c : Curve) (o : LineOps Fp F K) (x y z : E → F) (e1 : ECPOps Fp E1)
    (P R : E) (Q S : E1) (hx : 1 ≤ c.CURVE_Bnx) :
    (PAIR_ate_loop c o (groupOps x y z) e1 P Q).2 = c.CURVE_Bnx • P ∧
    (PAIR_double_ate_loop c o (groupOps x y z) e1 P Q R S).2
      = (c.CURVE_Bnx • P, c.CURVE_Bnx • R) ∧
    BIG_bit (c.CURVE_Bnx * 3) 0 - BIG_bit c.CURVE_Bnx 0 = 0 ∧
    BIG_bit (c.CURVE_Bnx * 3) (BIG_nbits (c.CURVE_Bnx * 3) - 1)
      - BIG_bit c.CURVE_Bnx (BIG_nbits (c.CURVE_Bnx * 3) - 1) = 1 ∧
    ∑ i in Finset.Icc 1 (BIG_nbits (c.CURVE_Bnx * 3) - 1),
      (BIG_bit (c.CURVE_Bnx * 3) i - BIG_bit c.CURVE_Bnx i) * 2 ^ (i - 1) = c.CURVE_Bnx := by
  obtain ⟨n, hn⟩ := Int.eq_ofNat_of_zero_le (show 0 ≤ c.CURVE_Bnx by omega)
  have hn1 : 1 ≤ n := by omega
  have h3 : c.CURVE_Bnx * 3 = ((n * 3 : ℕ) : ℤ) := by
    rw [hn]
    push_cast
    rfl
  have hnb : BIG_nbits (c.CURVE_Bnx * 3) = Nat.size (n * 3) := by
    rw [h3]
    unfold BIG_nbits
    rw [Int.toNat_natCast]
  obtain ⟨hs2, hq1, hq0, hz3, hz1⟩ := size_three_mul n hn1
  have hhalf : (((n * 3) / 2 ^ 1 : ℕ) : ℤ) - ((n / 2 ^ 1 : ℕ) : ℤ) = (n : ℤ) := by
    simp only [pow_one]
    omega
  have hloop : ∀ (P : E) (Q : E1), (PAIR_ate_loop c o (groupOps x y z) e1 P Q).2
      = c.CURVE_Bnx • P := by
    intro P Q
    unfold PAIR_ate_loop
    simp only [hnb, h3]
    rw [hn]
    have := PAIR_ate_loop_point c o x y z n P ((e1.x (e1.ECP_affine Q)))
      ((e1.y (e1.ECP_affine Q))) (Nat.size (n * 3) - 2) ((1 : K), P) (by
        have e : Nat.size (n * 3) - 2 + 1 = Nat.size (n * 3) - 1 := by omega
        simp only [e, hq1, hq0]
        simp)
    rw [hhalf] at this
    exact this
  refine ⟨hloop P Q, ?_, ?_, ?_, ?_⟩
  · rw [PAIR_double_ate_loop_eq, hloop P Q, hloop R S]
  · rw [h3, hn]
    have a3 := BIG_bit_div (n * 3) 0
    have a1 := BIG_bit_div n 0
    rcases BIG_bit_cases ((n * 3 : ℕ) : ℤ) 0 with b3 | b3 <;>
      rcases BIG_bit_cases ((n : ℕ) : ℤ) 0 with b1 | b1 <;>
      simp only [b3, b1, pow_zero, Nat.div_one, zero_add, pow_one] at a3 a1 ⊢ <;> omega
  · rw [hnb, h3, hn]
    have a3 := BIG_bit_div (n * 3) (Nat.size (n * 3) - 1)
    have a1 := BIG_bit_div n (Nat.size (n * 3) - 1)
    have e : Nat.size (n * 3) - 1 + 1 = Nat.size (n * 3) := by omega
    rw [e, hq1, hz3] at a3
    rw [e, hq0, hz1] at a1
    simp only [Nat.cast_one, Nat.cast_zero, mul_zero, zero_add] at a3 a1
    rw [← a3, ← a1]
    rfl
  · rw [hnb, h3, hn]
    have hsum := miller_digit_sum n (Nat.size (n * 3) - 1)
    have e : Nat.size (n * 3) - 1 + 1 = Nat.size (n * 3) := by omega
    rw [e, hz3, hz1, hhalf] at hsum
    simpa using hsum

theorem miller_accumulator_witness :
    (1 : ℤ) ≤ toy3.CURVE_Bnx ∧
    (PAIR_ate_loop toy3 gaussLineK gaussPoints (⟨fun Q => Q.1, fun Q => Q.2, fun Q => Q⟩ :
        ECPOps ℤ (ℤ × ℤ)) (3, 5, 1) (2, 3)).2
      = toy3.CURVE_Bnx • ((3, 5, 1) : GaussianInt × GaussianInt × GaussianInt) :=
  ⟨by decide,
    (miller_accumulator toy3 gaussLineK
      (fun A : GaussianInt × GaussianInt × GaussianInt => A.1) (fun A => A.2.1)
      (fun A => A.2.2)
      (⟨fun Q => Q.1, fun Q => Q.2, fun Q => Q⟩ : ECPOps ℤ (ℤ × ℤ)) (3, 5, 1) (1, 2, 1)
      (2, 3) (2, 3) (by decide)).1⟩

/-! ## The sign correction keeps the smaller candidate -/

/-- The bit length of a number between `2^k` and `2^(k+1)` is `k + 1`. -/
theorem nbits_eq (a : ℤ) (k : ℕ) (h1 : 2 ^ k ≤ a) (h2 : a < 2 ^ (k + 1)) :
    BIG_nbits a = k + 1 := by
  unfold BIG_nbits
  have ha : 0 ≤ a := le_trans (by positivity) h1
  obtain ⟨n, rfl⟩ := Int.eq_ofNat_of_zero_le ha
  rw [Int.toNat_natCast]
  have h1n : 2 ^ k ≤ n := by exact_mod_cast h1
  have h2n : n < 2 ^ (k + 1) := by exact_mod_cast h2
  have hlo : k < Nat.size n := Nat.lt_size.mpr h1n
  have hhi : Nat.size n ≤ k + 1 := Nat.size_le.mpr h2n
  omega

/-- The bound `e <= q` on the scalar matters for the comparison by bit length: with
`Bnx = 2`, `q = 241`, positive sign and `e = 16000 > q` the piece `u[7]` of `gs` is
`125`; `q - 125 = 116` has as many bits, and `125` is kept. -/
theorem bit_length_tie_beyond_order :
    (gs toy2p 16000).getD 7 0 = 125 ∧
    ((PAIR_G2mul_fix toy2p (fun Q => (2 : ℤ) • Q) (1 : ZMod 241) 16000).map
      (fun t => (t.1, t.2.2))).getD 7 (0, false) = (125, false) ∧
    min (125 : ℤ) (toy2p.CURVE_Order - 125) = 116 ∧
    BIG_nbits 125 = 7 ∧ BIG_nbits (toy2p.CURVE_Order - 125) = 7 := by
  have hg : gs toy2p 16000 = [0, 0, 0, 0, 0, 0, 0, 125] := by decide
  have h125 : BIG_nbits 125 = 7 := nbits_eq 125 6 (by norm_num) (by norm_num)
  have h116 : BIG_nbits 116 = 7 := nbits_eq 116 6 (by norm_num) (by norm_num)
  have hm : BIG_modneg 125 241 = 116 := by decide
  have hq : toy2p.CURVE_Order = 241 := rfl
  refine ⟨by rw [hg]; rfl, ?_, by decide, h125, by rw [hq]; exact h116⟩
  simp only [PAIR_G2mul_fix, hg, hq, frobArray, List.zipWith_cons_cons, List.map_cons,
    List.getD_cons_succ, List.getD_cons_zero]
  simp only [G2_sign_step, hm, h125, h116, lt_irrefl, if_false]

/-- A piece equal to `q` is its own negation modulo `q` under `BIG_modneg`; it is kept
and the point is left as it is. -/
theorem keep_smaller_self {α : Type} (q : ℤ) (R negR : α) :
    BIG_modneg q q = q ∧ keep_smaller q q R negR = (q, R, false) := by
  have hm : BIG_modneg q q = q := by
    unfold BIG_modneg
    rw [Int.emod_self, sub_zero]
  refine ⟨hm, ?_⟩
  unfold keep_smaller
  rw [hm, if_neg (lt_irrefl q)]

end Pair192
